import Mathlib

/-!
Verification development for the htmldiff library (milahu/htmldiff.js).

The TypeScript source (src/htmldiff.ts, shipped with its compiled dist) is
shallowly embedded below: strings are processed as `List Char` (mirroring the
`Array.from(html)` code-point iteration of the source), JS objects become
structures, the mutable worklist/accumulator loops become recursions (bounded
loops get an explicit iteration budget that provably exceeds the number of
iterations the JS loop performs), and the `throw` statements become `Except`.
-/

set_option maxRecDepth 10000

namespace Htmldiff

/-- The character class of the JS regex `\s` (ECMAScript WhiteSpace and
LineTerminator code points). -/
def jsWhitespace (c : Char) : Bool :=
  c = ' ' || c = '\t' || c = '\n' || c.val = 11 || c.val = 12 || c = '\r' ||
  c.val = 0xA0 || c.val = 0x1680 || (0x2000 ≤ c.val && c.val ≤ 0x200A) ||
  c.val = 0x2028 || c.val = 0x2029 || c.val = 0x202F || c.val = 0x205F ||
  c.val = 0x3000 || c.val = 0xFEFF

/-- `isEndOfTag` from the source: `char === '>'`. -/
def isEndOfTag (c : Char) : Bool := c = '>'

/-- `isStartOfTag` from the source: `char === '<'`. -/
def isStartOfTag (c : Char) : Bool := c = '<'

/-- `isWhitespace` from the source (`/^\s+$/` applied to a single character). -/
def isWhitespace (c : Char) : Bool := jsWhitespace c

/-- Abstraction of the source's `XRegExp('\\p{L}|\\d')` single-character test.
The embedding uses the ASCII letter/digit classes plus the `#`/`@` characters
accepted by the compiled dist; none of the theorems below depend on the exact
extent of this class (every branch of the scanner preserves the proved
invariants for any classification). -/
def unicodeLetterOrDigit (c : Char) : Bool := c.isAlpha || c.isDigit

/-- The atomic tag names of `atomicTagsRegExp`
(`/^<(iframe|object|math|svg|script|video|head|style|a)/`), in the regex's
alternation order. -/
def atomicTagNames : List String :=
  ["iframe", "object", "math", "svg", "script", "video", "head", "style", "a"]

/-- `isStartOfAtomicTag` from the source: the regex anchors at the start, so a
word matches exactly when it begins with `<` followed by one of the listed
names; the first alternative that matches is the captured tag name. -/
def isStartOfAtomicTag (word : List Char) : Option String :=
  (atomicTagNames.find? fun name => ("<" ++ name).data.isPrefixOf word)

/-- `isEndOfAtomicTag` from the source: the last `tag.length + 2` characters of
`word` equal `'</' + tag` (a shorter word never compares equal). -/
def isEndOfAtomicTag (word : List Char) (tag : String) : Bool :=
  ("</" ++ tag).data.isSuffixOf word

/-- `isStartOfHTMLComment` from the source: the regex `^<!` `--`. -/
def isStartOfHTMLComment (word : List Char) : Bool :=
  "<!--".data.isPrefixOf word

/-- `isEndOfHTMLComment` from the source: the regex `--` `>$`. -/
def isEndOfHTMLComment (word : List Char) : Bool :=
  "-->".data.isSuffixOf word

/-- JS `String.prototype.trim` on a character list. -/
def jsTrimList (l : List Char) : List Char :=
  ((l.dropWhile jsWhitespace).reverse.dropWhile jsWhitespace).reverse

/-- `isTag` from the source: `tagRegExp = /^\s*<([^!>][^>]*)>\s*$/`, returning
`match[1].trim().split(' ')[0]` when the regex matches (`none` models JS
`false`). The capture runs from just after `<` to just before the first `>`;
the tail after that `>` must be all whitespace. -/
def isTag (token : String) : Option String :=
  match token.data.dropWhile jsWhitespace with
  | '<' :: rest =>
    let inner := rest.takeWhile (fun c => c ≠ '>')
    match inner with
    | [] => none
    | c :: _ =>
      if c = '!' then none
      else
        match rest.drop inner.length with
        | '>' :: tail =>
          if tail.all jsWhitespace then
            some (String.mk ((jsTrimList inner).takeWhile (fun c => c ≠ ' ')))
          else none
        | _ => none
  | _ => none

/-- JS truthiness of `isTag`'s result: `false` and the empty string are falsy. -/
def tagTruthy : Option String → Bool
  | none => false
  | some s => s ≠ ""

/-- `isntTag` from the source. -/
def isntTag (token : String) : Bool := !(tagTruthy (isTag token))

/-- `isVoidTag` from the source: `/^\s*<[^>]+\/>\s*$/` — between `<` and the
first `>` there are one or more non-`>` characters the last of which is `/`,
and only whitespace may follow the `>`. -/
def isVoidTag (token : String) : Bool :=
  match token.data.dropWhile jsWhitespace with
  | '<' :: rest =>
    let inner := rest.takeWhile (fun c => c ≠ '>')
    match rest.drop inner.length with
    | '>' :: tail =>
      decide (2 ≤ inner.length) && inner.getLast? = some '/' && tail.all jsWhitespace
    | _ => false
  | _ => false

/-- The `/^<img[\s>]/` test used by `isWrappable`. -/
def isImgTag (token : String) : Bool :=
  match token.data with
  | '<' :: 'i' :: 'm' :: 'g' :: c :: _ => jsWhitespace c || c = '>'
  | _ => false

/-- `isWrappable` from the source. -/
def isWrappable (token : String) : Bool :=
  isImgTag token || isntTag token ||
    (isStartOfAtomicTag token.data).isSome || isVoidTag token

/-- One collapsing step of the key normalisation regex
`/(\s+|&nbsp;|&#160;)/g → ' '`: each maximal whitespace run and each literal
`&nbsp;`/`&#160;` entity is replaced by a single space. The boolean records
whether the previous character was part of a whitespace run (so the run emits
only one space). -/
def collapseWhitespaceRuns : Bool → List Char → List Char
  | _, [] => []
  | _, '&' :: 'n' :: 'b' :: 's' :: 'p' :: ';' :: rest =>
      ' ' :: collapseWhitespaceRuns false rest
  | _, '&' :: '#' :: '1' :: '6' :: '0' :: ';' :: rest =>
      ' ' :: collapseWhitespaceRuns false rest
  | inRun, c :: rest =>
      if jsWhitespace c then
        if inRun then collapseWhitespaceRuns true rest
        else ' ' :: collapseWhitespaceRuns true rest
      else c :: collapseWhitespaceRuns false rest

/-- At the given position, try to match `attr` (e.g. `src=`) followed by a
quote (`'` or `"`), a run of non-quote characters (the captured value) and a
closing quote — the pattern `attr=['"]([^"']*)['"]` of the key regexes.
Returns the captured value together with the remainder after the closing
quote. -/
def attrValueHere (attr : List Char) (l : List Char) : Option (List Char × List Char) :=
  if attr.isPrefixOf l then
    match l.drop attr.length with
    | q :: rest =>
      if q = '\'' || q = '"' then
        let v := rest.takeWhile (fun c => c ≠ '\'' && c ≠ '"')
        match rest.drop v.length with
        | _ :: after => some (v, after)
        | [] => none
      else none
    | [] => none
  else none

/-- All matches of `attr=['"]([^"']*)['"]` in `l`, left to right, each with the
remainder of the token after its closing quote. -/
def attrValueMatches (attr : List Char) : List Char → List (List Char × List Char)
  | [] => []
  | c :: rest =>
    (match attrValueHere attr (c :: rest) with
     | some p => [p]
     | none => []) ++ attrValueMatches attr rest

/-- The value captured by a greedy `.*attr=['"]([^"']*)['"]` pattern whose
remainder must satisfy `cond`: greediness selects the last occurrence for
which the rest of the regex still matches. -/
def lastAttrValue (attr : List Char) (cond : List Char → Bool) (l : List Char) :
    Option (List Char) :=
  ((attrValueMatches attr l).filter fun p => cond p.2).getLast?.map (·.1)

/-- First index at which `pat` occurs in `l` (JS `String.prototype.indexOf`). -/
def indexOfSub (pat : List Char) : List Char → Option Nat
  | [] => if pat.isEmpty then some 0 else none
  | c :: rest =>
    if pat.isPrefixOf (c :: rest) then some 0
    else (indexOfSub pat rest).map (· + 1)

/-- The first match of the unanchored `/<([^\s>]+)[\s>]/` regex used for the
generic tag-name key: a `<` followed by a nonempty run of non-whitespace,
non-`>` characters that is terminated by a whitespace or `>` character. -/
def findTagName : List Char → Option (List Char)
  | [] => none
  | c :: rest =>
    if c = '<' then
      let run := rest.takeWhile (fun c => !(jsWhitespace c) && c ≠ '>')
      if run ≠ [] ∧ rest.drop run.length ≠ [] then some run
      else findTagName rest
    else findTagName rest

/-- Does the token match `/^<(svg|math|video)[\s>]/`? -/
def isSvgMathVideo (l : List Char) : Bool :=
  (["svg", "math", "video"].any fun name =>
    ("<" ++ name).data.isPrefixOf l &&
      (match l.drop (name.length + 1) with
       | c :: _ => jsWhitespace c || c = '>'
       | [] => false))

/-- `getKeyForToken` from the source, branch for branch:
`<img ... src=X>` → `<img src="X">`; `<object ... data=X` →
`<object src="X"></object>`; anchors with an `href` keep the full token;
`svg`/`math`/`video` keep the full token minus a 44-character `data-uuid="…"`
span; `<iframe ... src=X ... >` → `<iframe src="X"></iframe>`; any other tag →
`<tagname>` lower-cased; text collapses whitespace and space entities. -/
def getKeyForToken (token : String) : String :=
  let l := token.data
  match (if "<img".data.isPrefixOf l then
          lastAttrValue "src=".data
            (fun rest => decide (rest ≠ []) && l.getLast? = some '>') l
        else none) with
  | some v => "<img src=\"" ++ String.mk v ++ "\">"
  | none =>
  match (if "<object".data.isPrefixOf l then
          lastAttrValue "data=".data (fun _ => true) l
        else none) with
  | some v => "<object src=\"" ++ String.mk v ++ "\"></object>"
  | none =>
  if "<a".data.isPrefixOf l ∧ (lastAttrValue "href=".data (fun _ => true) l).isSome then
    token
  else if isSvgMathVideo l then
    match indexOfSub "data-uuid=\"".data l with
    | some i => String.mk (l.take i ++ l.drop (i + 44))
    | none => token
  else
  match (if "<iframe".data.isPrefixOf l then
          lastAttrValue "src=".data (fun rest => rest.contains '>') l
        else none) with
  | some v => "<iframe src=\"" ++ String.mk v ++ "\"></iframe>"
  | none =>
  match findTagName l with
  | some run => "<" ++ String.mk (run.map Char.toLower) ++ ">"
  | none =>
    if token ≠ "" then String.mk (collapseWhitespaceRuns false l) else token

/-- A token: the literal text slice and the normalised comparison key. -/
structure Token where
  str : String
  key : String
  deriving DecidableEq, Repr

/-- `createToken` from the source (the dist build carries no source position,
so the embedding has none either). -/
def createToken (currentWord : String) : Token :=
  { str := currentWord, key := getKeyForToken currentWord }

/-- `createToken` applied to an accumulated character list. -/
def mkToken (w : List Char) : Token := createToken (String.mk w)

/-- The mutable locals of `htmlToTokens`: the scanner mode (kept as the string
the source assigns, so the `default: throw` branch of the `switch` stays
expressible), the accumulated word, the pending atomic tag name, and the
emitted tokens. -/
structure ScanState where
  mode : String
  currentWord : List Char
  currentAtomicTag : String
  words : List Token
  deriving Repr

/-- The `case 'char'` branch of `htmlToTokens`. The `case 'whitespace'`
fall-through (`charIdx--; mode = 'char'`) re-processes the same character in
this branch, so it is factored out. -/
def charModeStep (st : ScanState) (c : Char) : ScanState :=
  if isStartOfTag c then
    { st with
      mode := "tag",
      currentWord := ['<'],
      words := st.words ++ (if st.currentWord ≠ [] then [mkToken st.currentWord] else []) }
  else if jsWhitespace c then
    { st with
      mode := "whitespace",
      currentWord := [c],
      words := st.words ++ (if st.currentWord ≠ [] then [mkToken st.currentWord] else []) }
  else if unicodeLetterOrDigit c then
    { st with currentWord := st.currentWord ++ [c] }
  else if c = '&' then
    { st with
      mode := "entity",
      currentWord := [c],
      words := st.words ++ (if st.currentWord ≠ [] then [mkToken st.currentWord] else []) }
  else
    { st with
      currentWord := [],
      words := st.words ++ (if st.currentWord ≠ [] then [mkToken st.currentWord] else [])
                ++ [mkToken [c]] }

/-- One iteration of the scanner loop of `htmlToTokens`, dispatching on the
mode exactly like the source's `switch`; the `default` branch is the source's
`throw new Error('Unknown mode ' + mode)`. -/
def scanStep (st : ScanState) (c : Char) : Except String ScanState :=
  if st.mode = "tag" then
    .ok (match isStartOfAtomicTag st.currentWord with
      | some atomicTag =>
        { st with mode := "atomic_tag", currentAtomicTag := atomicTag,
                  currentWord := st.currentWord ++ [c] }
      | none =>
        if isStartOfHTMLComment st.currentWord then
          { st with mode := "html_comment", currentWord := st.currentWord ++ [c] }
        else if isEndOfTag c then
          { st with
            mode := if isWhitespace c then "whitespace" else "char",
            currentWord := [],
            words := st.words ++ [mkToken (st.currentWord ++ ['>'])] }
        else
          { st with currentWord := st.currentWord ++ [c] })
  else if st.mode = "atomic_tag" then
    .ok (if isEndOfTag c ∧ isEndOfAtomicTag st.currentWord st.currentAtomicTag then
      { st with mode := "char", currentWord := [], currentAtomicTag := "",
                words := st.words ++ [mkToken (st.currentWord ++ ['>'])] }
    else
      { st with currentWord := st.currentWord ++ [c] })
  else if st.mode = "html_comment" then
    .ok (if isEndOfHTMLComment (st.currentWord ++ [c]) then
      { st with mode := "char", currentWord := [] }
    else
      { st with currentWord := st.currentWord ++ [c] })
  else if st.mode = "char" then
    .ok (charModeStep st c)
  else if st.mode = "entity" then
    .ok (if c = ';' then
      { st with mode := "char", currentWord := [],
                words := st.words ++ [mkToken (st.currentWord ++ [c])] }
    else
      { st with currentWord := st.currentWord ++ [c] })
  else if st.mode = "whitespace" then
    .ok (if isStartOfTag c then
      { st with
        mode := "tag",
        currentWord := ['<'],
        words := st.words ++ (if st.currentWord ≠ [] then [mkToken st.currentWord] else []) }
    else if isWhitespace c then
      { st with currentWord := st.currentWord ++ [c] }
    else
      -- `charIdx--` seek-back: the same character is re-processed in char
      -- mode with an empty current word.
      charModeStep
        { st with mode := "char", currentWord := [],
                  words := st.words ++ (if st.currentWord ≠ [] then [mkToken st.currentWord] else []) }
        c)
  else
    .error ("Unknown mode " ++ st.mode)

/-- The scanner loop over the code points of the input. -/
def scanAll : List Char → ScanState → Except String ScanState
  | [], st => .ok st
  | c :: rest, st =>
    match scanStep st c with
    | .ok st' => scanAll rest st'
    | .error e => .error e

/-- The initial scanner state of `htmlToTokens`. -/
def initScanState : ScanState :=
  { mode := "char", currentWord := [], currentAtomicTag := "", words := [] }

/-- `htmlToTokens` from the source, with the `throw` of the unknown-mode
branch surfaced in `Except`. -/
def htmlToTokensE (html : String) : Except String (List Token) :=
  (scanAll html.data initScanState).map fun st =>
    st.words ++ (if st.currentWord ≠ [] then [mkToken st.currentWord] else [])

/-- `htmlToTokens` as a total function; the theorem `c9_tokenizer_total`
below shows the error branch is unreachable, so the default is never taken. -/
def htmlToTokens (html : String) : List Token :=
  match htmlToTokensE html with
  | .ok ts => ts
  | .error _ => []

/-! ### The key → indices maps and segments -/

/-- Insert an index under a key, appending to the key's index list if the key
is already present (the body of `createMap`'s reduce). -/
def mapInsert : List (String × List Nat) → String → Nat → List (String × List Nat)
  | [], k, i => [(k, [i])]
  | (k', is) :: rest, k, i =>
    if k' = k then (k', is ++ [i]) :: rest else (k', is) :: mapInsert rest k i

/-- The reduce of `createMap`, carrying the current index. -/
def createMapGo : List Token → Nat → List (String × List Nat) → List (String × List Nat)
  | [], _, m => m
  | t :: rest, idx, m => createMapGo rest (idx + 1) (mapInsert m t.key idx)

/-- `createMap` from the source: a map from token key to the (increasing) list
of indices at which the key occurs. -/
def createMap (tokens : List Token) : List (String × List Nat) :=
  createMapGo tokens 0 []

/-- JS property lookup on the association-list representation of the map
(`map[key]`, `undefined` = `none`). -/
def mapLookup : List (String × List Nat) → String → Option (List Nat)
  | [], _ => none
  | (k', is) :: rest, k => if k' = k then some is else mapLookup rest k

/-- `Segment` from the source. -/
structure Segment where
  beforeTokens : List Token
  afterTokens : List Token
  beforeMap : List (String × List Nat)
  afterMap : List (String × List Nat)
  beforeIndex : Nat
  afterIndex : Nat
  deriving DecidableEq, Repr

/-- `createSegment` from the source. -/
def createSegment (beforeTokens afterTokens : List Token)
    (beforeIndex afterIndex : Nat) : Segment :=
  { beforeTokens := beforeTokens,
    afterTokens := afterTokens,
    beforeMap := createMap beforeTokens,
    afterMap := createMap afterTokens,
    beforeIndex := beforeIndex,
    afterIndex := afterIndex }

/-- `Match` from the source. The segment-local start offsets and the length
are the natural numbers the source computes them from; the end offsets are
integers because `makeMatch` produces `start + length - 1`, which is `-1` for
the synthetic zero-length match at the end of an empty document. -/
structure Match where
  segment : Segment
  length : Nat
  startInBefore : Nat
  startInAfter : Nat
  endInBefore : Int
  endInAfter : Int
  segmentStartInBefore : Nat
  segmentStartInAfter : Nat
  segmentEndInBefore : Int
  segmentEndInAfter : Int
  deriving DecidableEq, Repr

/-- `makeMatch` from the source. -/
def makeMatch (startInBefore startInAfter length : Nat) (segment : Segment) : Match :=
  { segment := segment,
    length := length,
    startInBefore := startInBefore + segment.beforeIndex,
    startInAfter := startInAfter + segment.afterIndex,
    endInBefore := (startInBefore : Int) + segment.beforeIndex + length - 1,
    endInAfter := (startInAfter : Int) + segment.afterIndex + length - 1,
    segmentStartInBefore := startInBefore,
    segmentStartInAfter := startInAfter,
    segmentEndInBefore := (startInBefore : Int) + length - 1,
    segmentEndInAfter := (startInAfter : Int) + length - 1 }

/-- `compareMatches` from the source. -/
def compareMatches (m1 m2 : Match) : Int :=
  if m2.endInBefore < (m1.startInBefore : Int) ∧ m2.endInAfter < (m1.startInAfter : Int) then
    -1
  else if (m2.startInBefore : Int) > m1.endInBefore ∧ (m2.startInAfter : Int) > m1.endInAfter then
    1
  else
    0

/-- The binary search tree of matches (`TreeNode`, with `null` as `leaf`). -/
inductive MTree where
  | leaf : MTree
  | node : MTree → Match → MTree → MTree
  deriving Repr

/-- `addToNode` from the source; criss-crossing matches (comparison `0`) are
dropped. -/
def addToNode : MTree → Match → MTree
  | .leaf, m => .node .leaf m .leaf
  | .node l v r, m =>
    let position := compareMatches v m
    if position = -1 then .node (addToNode l m) v r
    else if position = 1 then .node l v (addToNode r m)
    else .node l v r

/-- `nodeToArray` from the source: in-order traversal. -/
def nodeToArray : MTree → List Match
  | .leaf => []
  | .node l v r => nodeToArray l ++ v :: nodeToArray r

/-! ### Finding matches -/

/-- The forward-extension `while` loop of `getFullMatch`, expressed on the
token lists starting one past the match heads: the loop increments the length
while both lists still have tokens and their keys agree. -/
def commonKeyLen : List Token → List Token → Nat
  | b :: bs, a :: as => if b.key = a.key then commonKeyLen bs as + 1 else 0
  | _, _ => 0

/-- The key of the token at an index (`tokens[i]?.key`). -/
def keyAt (l : List Token) (i : Nat) : Option String := (l.get? i).map (·.key)

/-- `getFullMatch` from the source. -/
def getFullMatch (segment : Segment) (beforeStart afterStart minLength : Nat)
    (lookBehind : Bool) : Option Match :=
  let beforeTokens := segment.beforeTokens
  let afterTokens := segment.afterTokens
  let minBeforeIndex := beforeStart + minLength
  let minAfterIndex := afterStart + minLength
  if minBeforeIndex ≥ beforeTokens.length ∨ minAfterIndex ≥ afterTokens.length then
    none
  else if minLength ≠ 0 ∧ keyAt beforeTokens minBeforeIndex ≠ keyAt afterTokens minAfterIndex then
    none
  else
    let currentLength :=
      commonKeyLen (beforeTokens.drop (beforeStart + 1)) (afterTokens.drop (afterStart + 1)) + 1
    if lookBehind ∧ beforeStart > 0 ∧ afterStart > 0 ∧
        keyAt beforeTokens (beforeStart - 1) = some " " ∧
        keyAt afterTokens (afterStart - 1) = some " " then
      some (makeMatch (beforeStart - 1) (afterStart - 1) (currentLength + 1) segment)
    else
      some (makeMatch beforeStart afterStart currentLength segment)

/-- `bestMatch ? bestMatch.length : 0`. -/
def bestLength : Option Match → Nat
  | some b => b.length
  | none => 0

/-- The inner `forEach` of `findBestMatch` over the after-side locations of
the current key. -/
def scanLocations (segment : Segment) (beforeIndex : Nat) (lookBehind : Bool)
    (locs : List Nat) (best : Option Match) : Option Match :=
  locs.foldl
    (fun b afterIndex =>
      let bestMatchLength := bestLength b
      match getFullMatch segment beforeIndex afterIndex bestMatchLength lookBehind with
      | some m => if m.length > bestMatchLength then some m else b
      | none => b)
    best

/-- The bail-out test of `findBestMatch`'s loop:
`bestMatch && remainingTokens < bestMatch.length`. -/
def shouldBail (remainingTokens : Nat) : Option Match → Bool
  | some b => decide (remainingTokens < b.length)
  | none => false

/-- The `for` loop of `findBestMatch`. The `fuel` argument is the number of
remaining loop iterations; the wrapper passes the list length, which is
exactly the bound of the source's `for (beforeIndex < beforeTokens.length)`
loop. -/
def findBestMatchGo (segment : Segment) :
    Nat → Nat → Option Nat → Option Match → Option Match
  | 0, _, _, best => best
  | fuel + 1, beforeIndex, lastSpace, best =>
    if beforeIndex < segment.beforeTokens.length then
      -- bail out if the best match cannot be beaten any more
      if shouldBail (segment.beforeTokens.length - beforeIndex) best then
        best
      else
        match segment.beforeTokens.get? beforeIndex with
        | none => best
        | some beforeToken =>
          if beforeToken.key = " " then
            findBestMatchGo segment fuel (beforeIndex + 1) (some beforeIndex) best
          else
            let lookBehind := lastSpace.map (· + 1) = some beforeIndex
            match mapLookup segment.afterMap beforeToken.key with
            | none => findBestMatchGo segment fuel (beforeIndex + 1) lastSpace best
            | some locs =>
              findBestMatchGo segment fuel (beforeIndex + 1) lastSpace
                (scanLocations segment beforeIndex lookBehind locs best)
    else best

/-- `findBestMatch` from the source. -/
def findBestMatch (segment : Segment) : Option Match :=
  findBestMatchGo segment segment.beforeTokens.length 0 none none

/-- The worklist loop of `findMatchingBlocks`. The head of the list is the
top of the JS array-as-stack (`pop` takes the head; the source pushes the left
sub-segment first and the right one second, so the right one ends up on top).
The left sub-segment's before side is sliced from `topSegment.beforeTokens`
(the function argument captured by the closure), not from the current
segment — that is what the source does. `fuel` bounds the number of loop
iterations; `findMatchingBlocks` passes a budget that provably exceeds the
number of iterations the JS loop performs (each iteration strictly decreases
`2 * (sum of before-side lengths on the stack) + stack size`). -/
def findMatchingBlocksGo (topSegment : Segment) :
    Nat → List Segment → MTree → MTree
  | 0, _, t => t
  | _ + 1, [], t => t
  | fuel + 1, currSegment :: rest, t =>
    match findBestMatch currSegment with
    | none => findMatchingBlocksGo topSegment fuel rest t
    | some m =>
      if m.length ≠ 0 then
        let leftSegs : List Segment :=
          if m.segmentStartInBefore > 0 ∧ m.segmentStartInAfter > 0 then
            [createSegment (topSegment.beforeTokens.take m.segmentStartInBefore)
                           (currSegment.afterTokens.take m.segmentStartInAfter)
                           currSegment.beforeIndex currSegment.afterIndex]
          else []
        let rightBeforeTokens := currSegment.beforeTokens.drop (m.segmentEndInBefore + 1).toNat
        let rightAfterTokens := currSegment.afterTokens.drop (m.segmentEndInAfter + 1).toNat
        let rightSegs : List Segment :=
          if rightBeforeTokens ≠ [] ∧ rightAfterTokens ≠ [] then
            [createSegment rightBeforeTokens rightAfterTokens
              ((currSegment.beforeIndex : Int) + m.segmentEndInBefore + 1).toNat
              ((currSegment.afterIndex : Int) + m.segmentEndInAfter + 1).toNat]
          else []
        findMatchingBlocksGo topSegment fuel (rightSegs ++ leftSegs ++ rest) (addToNode t m)
      else findMatchingBlocksGo topSegment fuel rest t

/-- `findMatchingBlocks` from the source. -/
def findMatchingBlocks (segment : Segment) : List Match :=
  nodeToArray
    (findMatchingBlocksGo segment (2 * segment.beforeTokens.length + 2) [segment] .leaf)

/-! ### Operations -/

/-- The four operation actions. -/
inductive ActionKind where
  | equal | insert | delete | replace
  deriving DecidableEq, Repr

/-- `Operation` from the source: `endInBefore` is `undefined` for pure
inserts, `endInAfter` for pure deletes. The positions are integers because
they are computed as `match.start - 1` / `match.end`, which the source's own
arithmetic can in principle drive to `-1`. -/
structure Operation where
  action : ActionKind
  startInBefore : Int
  endInBefore : Option Int
  startInAfter : Int
  endInAfter : Option Int
  deriving DecidableEq, Repr

/-- The `matches.forEach` of `calculateOperations`: walk the ordered matches
tracking the two cursors, emitting a gap operation (insert/delete/replace) up
to each match and an `equal` operation over each nonzero-length match. -/
def opsFromMatches : List Match → Int → Int → List Operation
  | [], _, _ => []
  | m :: rest, positionInBefore, positionInAfter =>
    let actionUpToMatchPositions : Option ActionKind :=
      if positionInBefore = (m.startInBefore : Int) then
        (if positionInAfter ≠ (m.startInAfter : Int) then some .insert else none)
      else
        (if positionInAfter ≠ (m.startInAfter : Int) then some .replace else some .delete)
    let gapOps : List Operation :=
      match actionUpToMatchPositions with
      | none => []
      | some a =>
        [{ action := a,
           startInBefore := positionInBefore,
           endInBefore := if a ≠ .insert then some ((m.startInBefore : Int) - 1) else none,
           startInAfter := positionInAfter,
           endInAfter := if a ≠ .delete then some ((m.startInAfter : Int) - 1) else none }]
    let equalOps : List Operation :=
      if m.length ≠ 0 then
        [{ action := .equal,
           startInBefore := m.startInBefore,
           endInBefore := some m.endInBefore,
           startInAfter := m.startInAfter,
           endInAfter := some m.endInAfter }]
      else []
    gapOps ++ equalOps ++ opsFromMatches rest (m.endInBefore + 1) (m.endInAfter + 1)

/-- JS truthiness of an optional integer (`undefined` and `0` are falsy). -/
def jsIntTruthy : Option Int → Bool
  | none => false
  | some x => x ≠ 0

/-- JS `Array.prototype.slice` with integer arguments (negative indices count
from the end; out-of-range indices clamp). -/
def jsSlice (l : List Token) (s e : Int) : List Token :=
  let n : Int := l.length
  let s' := (if s < 0 then max (n + s) 0 else min s n).toNat
  let e' := (if e < 0 then max (n + e) 0 else min e n).toNat
  (l.take e').drop s'

/-- JS `Array.prototype.toString` on an array of plain `Token` objects: each
object stringifies to `[object Object]`, joined by commas. -/
def jsObjectArrayToString : List Token → String
  | [] => ""
  | [_] => "[object Object]"
  | _ :: t :: rest => "[object Object]," ++ jsObjectArrayToString (t :: rest)

/-- The JS regex test `^\s$` : true only for a one-character whitespace
string. -/
def regexSingleWs (s : String) : Bool :=
  match s.data with
  | [c] => jsWhitespace c
  | _ => false

/-- `isSingleWhitespace` from `calculateOperations`. Note that the source
applies the regex to `beforeTokens.slice(...).toString()`, which stringifies
the token objects — never their text — so the test is over
`"[object Object]"`-strings. -/
def isSingleWhitespace (beforeTokens : List Token) (op : Operation) : Bool :=
  if op.action ≠ .equal then false
  else if !jsIntTruthy op.endInBefore then false
  else if op.endInBefore.getD 0 - op.startInBefore ≠ 0 then false
  else
    regexSingleWs (jsObjectArrayToString
      (jsSlice beforeTokens op.startInBefore (op.endInBefore.getD 0 + 1)))

/-- The post-processing `operations.forEach` of `calculateOperations`,
threading `lastOp.action` (`none` models the initial `{action: 'none'}`). -/
def postProcessGo (beforeTokens : List Token) :
    List Operation → Option ActionKind → List Operation
  | [], _ => []
  | op :: rest, lastAction =>
    if (isSingleWhitespace beforeTokens op ∧ lastAction = some .replace) ∨
        (op.action = .replace ∧ lastAction = some .replace) then
      postProcessGo beforeTokens rest lastAction
    else
      op :: postProcessGo beforeTokens rest (some op.action)

/-- The post-processing pass of `calculateOperations`. -/
def postProcess (beforeTokens : List Token) (operations : List Operation) : List Operation :=
  postProcessGo beforeTokens operations none

/-- `calculateOperations` from the source (the body after its two null
checks, which `calculateOperationsChecked` models). -/
def calculateOperations (beforeTokens afterTokens : List Token) : List Operation :=
  let segment := createSegment beforeTokens afterTokens 0 0
  let matchList := findMatchingBlocks segment ++
    [makeMatch beforeTokens.length afterTokens.length 0 segment]
  postProcess beforeTokens (opsFromMatches matchList 0 0)

/-- The `throw`-guarded entry of `calculateOperations`: a `none` argument
models a JS `null`/`undefined` token array (an actual array, even empty, is
truthy). -/
def calculateOperationsChecked (beforeTokens afterTokens : Option (List Token)) :
    Except String (List Operation) :=
  match beforeTokens with
  | none => .error "Missing beforeTokens"
  | some bts =>
    match afterTokens with
    | none => .error "Missing afterTokens"
    | some ats => .ok (calculateOperations bts ats)

/-! ### Rendering -/

/-- The truthy tag of a token inside `TokenWrapper`
(`const tag = !isVoidTag(token) && isTag(token)`). -/
def wrapperTag (token : String) : Option String :=
  if isVoidTag token then none
  else match isTag token with
    | some s => if s ≠ "" then some s else none
    | none => none

/-- The tag-stack state of `TokenWrapper`'s reduce: the stack of open tags
with their positions, and the positions whose `insertedTag` note has been set
to `true` (an open tag whose matching close tag was found in the list). -/
structure TagScanState where
  tagStack : List (String × Nat)
  marked : List Nat

/-- One step of `TokenWrapper`'s reduce over `(index, token)`. -/
def tagScanStep (st : TagScanState) (idx : Nat) (token : String) : TagScanState :=
  match wrapperTag token with
  | none => st
  | some tag =>
    match st.tagStack with
    | (lastTag, pos) :: stackRest =>
      if "/" ++ lastTag = tag then { tagStack := stackRest, marked := pos :: st.marked }
      else { st with tagStack := (tag, idx) :: st.tagStack }
    | [] => { st with tagStack := [(tag, idx)] }

/-- The notes computed by `TokenWrapper`: for each token, whether it is
wrappable and whether a matched open tag should get the diagnostic attributes
injected (`insertedTag`). -/
def tokenWrapperNotes (tokens : List String) : List (Bool × Bool) :=
  let final := (tokens.enum).foldl (fun st p => tagScanStep st p.1 p.2)
    { tagStack := [], marked := [] }
  (tokens.enum).map fun p => (isWrappable p.2, final.marked.contains p.1)

/-- Split a token list into the maximal runs of equal wrappable-status that
`combineTokenNotes`' reduce builds. -/
def groupWrappableRuns : List (String × Bool) → List (Bool × List String)
  | [] => []
  | (t, w) :: rest =>
    match groupWrappableRuns rest with
    | [] => [(w, [t])]
    | (w', ts) :: gs =>
      if w = w' then (w, t :: ts) :: gs else (w, [t]) :: (w', ts) :: gs

/-- `combineTokenNotes` from the source: tokens with the `insertedTag` note
are rewritten by `tagFn` (each such token is rewritten before any run
containing it is emitted, so this is a map), then the list is split into
maximal wrappable/unwrappable runs and each run is rendered by `mapFn`. -/
def combineTokenNotes (mapFn : Bool × List String → String)
    (tagFn : String → String) (tokens : List String) : String :=
  let notes := tokenWrapperNotes tokens
  let rewritten := (tokens.enum).map fun p =>
    if ((notes.get? p.1).map (·.2)).getD false then tagFn p.2 else p.2
  let statuses := notes.map (·.1)
  String.join ((groupWrappableRuns (rewritten.zip statuses)).map mapFn)

/-- The replacement `openingTag.replace(regex-gt-ws-end, dataAttrs + matched)`
of `wrap`'s `tagFn`: inject the attributes just before the final `>` (plus
trailing whitespace) of the opening tag; an opening tag not ending that way is
returned unchanged. -/
def injectAttrs (dataAttrs : String) (s : String) : String :=
  let l := s.data
  let trailingWs := (l.reverse.takeWhile jsWhitespace).reverse
  let core := l.take (l.length - trailingWs.length)
  match core.getLast? with
  | some '>' =>
    String.mk (core.dropLast ++ dataAttrs.data ++ '>' :: trailingWs)
  | _ => s

/-- The attribute string `wrap` builds from its options (the `attrs` local of
the source's `wrap`). -/
def wrapAttrs (opIndex : Nat) (dataPrefixArg className : String) : String :=
  " data-" ++ (if dataPrefixArg ≠ "" then dataPrefixArg ++ "-" else "") ++
    "operation-index=\"" ++ toString opIndex ++ "\"" ++
    (if className ≠ "" then " class=\"" ++ className ++ "\"" else "")

/-- The per-run `mapFn` closure `wrap` passes to `combineTokenNotes`: a
wrappable run whose joined value has a nonempty trim is wrapped in `tag` with
the diagnostic attributes; a wrappable run whose value trims to empty yields
the empty string; an unwrappable run passes through bare. -/
def wrapMapFn (tag attrs : String) (segment : Bool × List String) : String :=
  if segment.1 then
    let val := String.join segment.2
    if jsTrimList val.data ≠ [] then
      "<" ++ tag ++ attrs ++ ">" ++ val ++ "</" ++ tag ++ ">"
    else ""
  else String.join segment.2

/-- The `tagFn` closure `wrap` passes to `combineTokenNotes`. -/
def wrapTagFn (tag dataPrefixArg : String) (opIndex : Nat)
    (openingTag : String) : String :=
  injectAttrs
    (" data-diff-node=\"" ++ tag ++ "\"" ++
     " data-" ++ (if dataPrefixArg ≠ "" then dataPrefixArg ++ "-" else "") ++
     "operation-index=\"" ++ toString opIndex ++ "\"")
    openingTag

/-- The `tagFn`-rewritten token list built inside `combineTokenNotes`. -/
def rewrittenTokens (tagFn : String → String) (tokens : List String) :
    List String :=
  (tokens.enum).map fun p =>
    if (((tokenWrapperNotes tokens).get? p.1).map (·.2)).getD false then tagFn p.2
    else p.2

/-- The wrappable-status list built inside `combineTokenNotes`. -/
def wrappableStatuses (tokens : List String) : List Bool :=
  (tokenWrapperNotes tokens).map (·.1)

/-- `wrap` from the source. `className` and `dataPrefixArg` model the JS
optional strings (absent = empty = falsy). -/
def wrap (tag : String) (content : List String) (opIndex : Nat)
    (dataPrefixArg className : String) : String :=
  let dp := if dataPrefixArg ≠ "" then dataPrefixArg ++ "-" else ""
  let attrs :=
    " data-" ++ dp ++ "operation-index=\"" ++ toString opIndex ++ "\"" ++
    (if className ≠ "" then " class=\"" ++ className ++ "\"" else "")
  combineTokenNotes
    (fun segment =>
      if segment.1 then
        let val := String.join segment.2
        if jsTrimList val.data ≠ [] then
          "<" ++ tag ++ attrs ++ ">" ++ val ++ "</" ++ tag ++ ">"
        else ""
      else String.join segment.2)
    (fun openingTag =>
      injectAttrs
        (" data-diff-node=\"" ++ tag ++ "\"" ++
         " data-" ++ dp ++ "operation-index=\"" ++ toString opIndex ++ "\"")
        openingTag)
    content

/-- The token range an operation renders on the after side: the source guards
on the truthiness of `op.endInAfter`, falling back to `slice(start, 1)`. -/
def opAfterSlice (op : Operation) (afterTokens : List Token) : List Token :=
  if jsIntTruthy op.endInAfter then
    jsSlice afterTokens op.startInAfter (op.endInAfter.getD 0 + 1)
  else
    jsSlice afterTokens op.startInAfter 1

/-- Ditto on the before side. -/
def opBeforeSlice (op : Operation) (beforeTokens : List Token) : List Token :=
  if jsIntTruthy op.endInBefore then
    jsSlice beforeTokens op.startInBefore (op.endInBefore.getD 0 + 1)
  else
    jsSlice beforeTokens op.startInBefore 1

/-- `OPS.equal` from the source. -/
def opsEqual (op : Operation) (_beforeTokens afterTokens : List Token)
    (_opIndex : Nat) (_dataPrefixArg _className : String) : String :=
  (opAfterSlice op afterTokens).foldl (fun prev curr => prev ++ curr.str) ""

/-- `OPS.insert` from the source. -/
def opsInsert (op : Operation) (_beforeTokens afterTokens : List Token)
    (opIndex : Nat) (dataPrefixArg className : String) : String :=
  wrap "ins" ((opAfterSlice op afterTokens).map (·.str)) opIndex dataPrefixArg className

/-- `OPS.delete` from the source. -/
def opsDelete (op : Operation) (beforeTokens _afterTokens : List Token)
    (opIndex : Nat) (dataPrefixArg className : String) : String :=
  wrap "del" ((opBeforeSlice op beforeTokens).map (·.str)) opIndex dataPrefixArg className

/-- `OPS.replace` from the source: delete-rendering followed by
insert-rendering. -/
def opsReplace (op : Operation) (beforeTokens afterTokens : List Token)
    (opIndex : Nat) (dataPrefixArg className : String) : String :=
  opsDelete op beforeTokens afterTokens opIndex dataPrefixArg className ++
  opsInsert op beforeTokens afterTokens opIndex dataPrefixArg className

/-- The `OPS` dispatch table. -/
def renderOp (op : Operation) (beforeTokens afterTokens : List Token)
    (opIndex : Nat) (dataPrefixArg className : String) : String :=
  match op.action with
  | .equal => opsEqual op beforeTokens afterTokens opIndex dataPrefixArg className
  | .insert => opsInsert op beforeTokens afterTokens opIndex dataPrefixArg className
  | .delete => opsDelete op beforeTokens afterTokens opIndex dataPrefixArg className
  | .replace => opsReplace op beforeTokens afterTokens opIndex dataPrefixArg className

/-- `renderOperations` from the source. -/
def renderOperations (beforeTokens afterTokens : List Token)
    (operations : List Operation) (dataPrefixArg className : String) : String :=
  (operations.enum).foldl
    (fun rendering p =>
      rendering ++ renderOp p.2 beforeTokens afterTokens p.1 dataPrefixArg className)
    ""

/-- `diff` from the source, the default export: fast path on exact string
equality, otherwise tokenize, calculate operations and render. -/
def diff (before after : String) (className dataPrefixArg : String) : String :=
  if before = after then before
  else
    let beforeTokens := htmlToTokens before
    let afterTokens := htmlToTokens after
    let ops := calculateOperations beforeTokens afterTokens
    renderOperations beforeTokens afterTokens ops dataPrefixArg className

/-! ## Specification predicates

Definitions used only to state the theorems below. -/

/-- The six modes the scanner's `switch` knows. -/
def validMode (m : String) : Prop :=
  m = "tag" ∨ m = "atomic_tag" ∨ m = "html_comment" ∨ m = "char" ∨
  m = "entity" ∨ m = "whitespace"

/-- The concatenated literal text of a token list. -/
def tokensText (ts : List Token) : List Char := (ts.map (·.str.data)).flatten

/-- Matches in "entirely before" position: the first ends strictly before the
second starts, on both the before and the after side. This is the order in
which `compareMatches` files matches into the tree. -/
def EntirelyBefore (m1 m2 : Match) : Prop :=
  m1.endInBefore < (m2.startInBefore : Int) ∧ m1.endInAfter < (m2.startInAfter : Int)

/-- Every match stored in a tree satisfies `P`. -/
def TreeAll (P : Match → Prop) : MTree → Prop
  | .leaf => True
  | .node l v r => TreeAll P l ∧ P v ∧ TreeAll P r

/-- The search-tree invariant maintained by `addToNode`: everything in a left
subtree is entirely before the node's match, everything in a right subtree
entirely after. -/
def BSTInv : MTree → Prop
  | .leaf => True
  | .node l v r =>
    BSTInv l ∧ BSTInv r ∧
    TreeAll (fun m => EntirelyBefore m v) l ∧ TreeAll (fun m => EntirelyBefore v m) r

/-- The internal consistency of a `Match` record as produced by `makeMatch`:
the global coordinates are the segment-local ones shifted by the segment's
offsets, every `end` field is `start + length - 1` (the claimed length
identity), the match fits inside its segment's token lists, and the matched
keys agree pairwise across the segment's before/after tokens. -/
def MatchGood (m : Match) : Prop :=
  1 ≤ m.length ∧
  m.startInBefore = m.segmentStartInBefore + m.segment.beforeIndex ∧
  m.startInAfter = m.segmentStartInAfter + m.segment.afterIndex ∧
  m.endInBefore = (m.startInBefore : Int) + m.length - 1 ∧
  m.endInAfter = (m.startInAfter : Int) + m.length - 1 ∧
  m.segmentEndInBefore = (m.segmentStartInBefore : Int) + m.length - 1 ∧
  m.segmentEndInAfter = (m.segmentStartInAfter : Int) + m.length - 1 ∧
  m.segmentStartInBefore + m.length ≤ m.segment.beforeTokens.length ∧
  m.segmentStartInAfter + m.length ≤ m.segment.afterTokens.length ∧
  ∀ j < m.length,
    keyAt m.segment.beforeTokens (m.segmentStartInBefore + j) =
      keyAt m.segment.afterTokens (m.segmentStartInAfter + j)

/-- A lookup map that is sound for `full`: every index filed under a key is
the position of a token of `full` with that key. -/
def GoodMap (full : List Token) (m : List (String × List Nat)) : Prop :=
  ∀ k l, mapLookup m k = some l → ∀ i ∈ l, ∃ t, full.get? i = some t ∧ t.key = k

/-- A segment whose after-side lookup map is the map of its after tokens (as
`createSegment` builds it). -/
def SegWf (s : Segment) : Prop := s.afterMap = createMap s.afterTokens

/-- A segment that lies inside a before-length `lb` / after-length `la`
document at its claimed offsets. -/
def SegInside (lb la : Nat) (s : Segment) : Prop :=
  s.beforeIndex + s.beforeTokens.length ≤ lb ∧ s.afterIndex + s.afterTokens.length ≤ la

/-- A match whose global coordinates fit a before-length `lb` / after-length
`la` document. -/
def MatchInside (lb la : Nat) (m : Match) : Prop :=
  m.startInBefore + m.length ≤ lb ∧ m.startInAfter + m.length ≤ la

/-- `chainFrom c stop ranges`: the inclusive integer ranges `ranges` tile the
interval `[c, stop)` in order — each range starts where the previous one
ended, is nonempty, and the last one ends at `stop - 1` (an exact partition
with no gaps and no overlaps). -/
def chainFrom : Int → Int → List (Int × Int) → Prop
  | c, stop, [] => c = stop
  | c, stop, (s, e) :: rest => s = c ∧ s ≤ e ∧ chainFrom (e + 1) stop rest

/-- The `[startInBefore, endInBefore]` ranges of the operations that have a
before side (all actions except `insert`). -/
def beforeRanges (ops : List Operation) : List (Int × Int) :=
  ops.filterMap fun op =>
    match op.action, op.endInBefore with
    | .insert, _ => none
    | _, some e => some (op.startInBefore, e)
    | _, none => none

/-- The `[startInAfter, endInAfter]` ranges of the operations that have an
after side (all actions except `delete`). -/
def afterRanges (ops : List Operation) : List (Int × Int) :=
  ops.filterMap fun op =>
    match op.action, op.endInAfter with
    | .delete, _ => none
    | _, some e => some (op.startInAfter, e)
    | _, none => none

/-- The tokens of an inclusive index range of a token list. -/
def sliceRange (l : List Token) (r : Int × Int) : List Token :=
  (l.drop r.1.toNat).take (r.2 + 1 - r.1).toNat

/-- What the operation generator needs of a match: the end fields are
`start + length - 1` and the global window fits the document. -/
def OpGenOK (lb la : Nat) (m : Match) : Prop :=
  m.endInBefore = (m.startInBefore : Int) + m.length - 1 ∧
  m.endInAfter = (m.startInAfter : Int) + m.length - 1 ∧
  m.startInBefore + m.length ≤ lb ∧ m.startInAfter + m.length ≤ la

/-- One past the before-side end of the last match (the final cursor value of
the operation generator). -/
def opsEndB (posB : Int) (ms : List Match) : Int :=
  match ms.getLast? with
  | none => posB
  | some m => m.endInBefore + 1

/-- Ditto on the after side. -/
def opsEndA (posA : Int) (ms : List Match) : Int :=
  match ms.getLast? with
  | none => posA
  | some m => m.endInAfter + 1

/-- No two adjacent operations are both `replace`. -/
def NoRR : List Operation → Prop :=
  List.Chain' (fun a b => ¬(a.action = .replace ∧ b.action = .replace))

/-- The post-processing pass as the amended C5 claim describes it: an
operation is dropped exactly when it immediately follows a kept `replace` and
is itself a `replace`; everything else is kept unchanged. -/
def specDropReplaceRunsGo : List Operation → Option ActionKind → List Operation
  | [], _ => []
  | op :: rest, lastAction =>
    if op.action = .replace ∧ lastAction = some .replace then
      specDropReplaceRunsGo rest lastAction
    else
      op :: specDropReplaceRunsGo rest (some op.action)

/-- Entry point of the amended post-processing description. -/
def specDropReplaceRuns (ops : List Operation) : List Operation :=
  specDropReplaceRunsGo ops none

/-! ## Theorems -/

/-! ### Tokenizer totality and losslessness -/

theorem charModeStep_mode (st : ScanState) (c : Char) :
    (charModeStep st c).mode = "tag" ∨ (charModeStep st c).mode = "whitespace" ∨
    (charModeStep st c).mode = "entity" ∨ (charModeStep st c).mode = st.mode := by
  unfold charModeStep
  split_ifs <;> simp

theorem charModeStep_valid (st : ScanState) (c : Char) (h : validMode st.mode) :
    validMode (charModeStep st c).mode := by
  rcases charModeStep_mode st c with h' | h' | h' | h'
  · simp [validMode, h']
  · simp [validMode, h']
  · simp [validMode, h']
  · rw [h']; exact h

theorem scanStep_ok (st : ScanState) (c : Char) (h : validMode st.mode) :
    ∃ st', scanStep st c = .ok st' ∧ validMode st'.mode := by
  unfold scanStep
  rcases h with h | h | h | h | h | h <;> rw [h]
  · refine ⟨_, rfl, ?_⟩
    cases hA : isStartOfAtomicTag st.currentWord with
    | some tag => simp [hA, validMode]
    | none => simp only [hA]; split_ifs <;> simp [validMode]
  · refine ⟨_, by rfl, ?_⟩
    split_ifs <;> simp [validMode]
  · refine ⟨_, by rfl, ?_⟩
    split_ifs <;> simp [validMode]
  · exact ⟨_, by rfl, charModeStep_valid st c (by simp [validMode, h])⟩
  · refine ⟨_, by rfl, ?_⟩
    split_ifs <;> simp [validMode]
  · refine ⟨_, by rfl, ?_⟩
    split_ifs with h1 h2 h3 h4
    · exact Or.inl rfl
    · exact Or.inl rfl
    · exact Or.inr (Or.inr (Or.inr (Or.inr (Or.inr rfl))))
    · exact charModeStep_valid _ c (Or.inr (Or.inr (Or.inr (Or.inl rfl))))
    · exact charModeStep_valid _ c (Or.inr (Or.inr (Or.inr (Or.inl rfl))))

theorem scanAll_ok (l : List Char) (st : ScanState) (h : validMode st.mode) :
    ∃ st', scanAll l st = .ok st' ∧ validMode st'.mode := by
  induction l generalizing st with
  | nil => exact ⟨st, rfl, h⟩
  | cons c rest ih =>
    obtain ⟨st', hstep, hval⟩ := scanStep_ok st c h
    obtain ⟨st'', hrest, hval'⟩ := ih st' hval
    exact ⟨st'', by simp [scanAll, hstep, hrest], hval'⟩

/-- C9: `htmlToTokens` is total — for every input string, including malformed
markup, the scanner terminates (it is a structurally bounded loop here) and
its unknown-mode error branch is unreachable, so a token list is always
returned. -/
theorem c9_tokenizer_total (html : String) :
    ∃ ts, htmlToTokensE html = .ok ts := by
  obtain ⟨st', h, -⟩ := scanAll_ok html.data initScanState (by simp [validMode, initScanState])
  exact ⟨_, by rw [htmlToTokensE, h]; rfl⟩

theorem mkToken_str (w : List Char) : (mkToken w).str.data = w := rfl

theorem tokensText_append (a b : List Token) :
    tokensText (a ++ b) = tokensText a ++ tokensText b := by
  simp [tokensText]

theorem tokensText_single (w : List Char) : tokensText [mkToken w] = w := by
  simp [tokensText, mkToken_str]

theorem tokensText_pushWord (words : List Token) (cw : List Char) :
    tokensText (words ++ (if cw ≠ [] then [mkToken cw] else [])) =
      tokensText words ++ cw := by
  by_cases h : cw = [] <;>
    simp [h, tokensText_append, tokensText_single, tokensText, mkToken_str]

theorem charModeStep_text (st : ScanState) (c : Char) (consumed : List Char)
    (hinv : tokensText st.words ++ st.currentWord = consumed) :
    tokensText (charModeStep st c).words ++ (charModeStep st c).currentWord =
      consumed ++ [c] := by
  unfold charModeStep
  split_ifs with h1 h3 h4 h5 <;>
    simp_all only [isStartOfTag, decide_eq_true_eq, ne_eq, not_not] <;>
    rw [← hinv] <;>
    simp [tokensText_pushWord, tokensText_append, tokensText_single, tokensText,
      mkToken_str, List.append_assoc]

theorem charModeStep_ne_comment (st : ScanState) (c : Char)
    (h : st.mode ≠ "html_comment") :
    (charModeStep st c).mode ≠ "html_comment" := by
  rcases charModeStep_mode st c with h' | h' | h' | h' <;> rw [h'] <;> simp [h]

/-- The current word is always a suffix of the consumed input. -/
theorem currentWord_suffix (st : ScanState) (consumed : List Char)
    (hinv : tokensText st.words ++ st.currentWord = consumed) :
    st.currentWord <:+ consumed :=
  ⟨tokensText st.words, hinv⟩

theorem scanStep_text (st : ScanState) (c : Char) (consumed : List Char)
    (hval : validMode st.mode) (hnc : st.mode ≠ "html_comment")
    (hinv : tokensText st.words ++ st.currentWord = consumed)
    (hno : ¬ ("<!--".data <:+: consumed)) :
    ∃ st', scanStep st c = .ok st' ∧
      tokensText st'.words ++ st'.currentWord = consumed ++ [c] ∧
      validMode st'.mode ∧ st'.mode ≠ "html_comment" := by
  unfold scanStep
  rcases hval with h | h | h | h | h | h <;> rw [h] <;>
    simp only [String.reduceEq, reduceIte]
  · -- tag mode
    cases hA : isStartOfAtomicTag st.currentWord with
    | some tag =>
      refine ⟨_, rfl, ?_, by simp [validMode], by simp⟩
      simp [← hinv, List.append_assoc]
    | none =>
      simp only [hA]
      by_cases hC : isStartOfHTMLComment st.currentWord
      · exfalso
        apply hno
        have hp : "<!--".data <+: st.currentWord := by
          rwa [isStartOfHTMLComment, List.isPrefixOf_iff_prefix] at hC
        exact hp.isInfix.trans (currentWord_suffix st consumed hinv).isInfix
      · rw [if_neg hC]
        by_cases hE : isEndOfTag c = true
        · rw [if_pos hE]
          have hc : c = '>' := by simpa [isEndOfTag] using hE
          refine ⟨_, rfl, ?_, ?_, ?_⟩
          · rw [← hinv]
            simp [tokensText_append, tokensText_single, hc, List.append_assoc]
          · by_cases hw : isWhitespace c = true <;> simp [hw, validMode]
          · by_cases hw : isWhitespace c = true <;> simp [hw]
        · rw [if_neg hE]
          refine ⟨_, rfl, ?_, by simp [validMode], by simp⟩
          simp [← hinv, List.append_assoc]
  · -- atomic_tag mode
    by_cases hE : isEndOfTag c = true ∧
        isEndOfAtomicTag st.currentWord st.currentAtomicTag = true
    · rw [if_pos hE]
      have hc : c = '>' := by simpa [isEndOfTag] using hE.1
      refine ⟨_, rfl, ?_, by simp [validMode], by simp⟩
      rw [← hinv]
      simp [tokensText_append, tokensText_single, hc, List.append_assoc]
    · rw [if_neg hE]
      refine ⟨_, rfl, ?_, by simp [validMode, h], by simp [h]⟩
      simp [← hinv, List.append_assoc]
  · exact absurd h hnc
  · -- char mode
    exact ⟨_, rfl, charModeStep_text st c consumed hinv,
      charModeStep_valid st c (by simp [validMode, h]),
      charModeStep_ne_comment st c (by simp [h])⟩
  · -- entity mode
    by_cases hc : c = ';'
    · rw [if_pos hc]
      refine ⟨_, rfl, ?_, by simp [validMode], by simp⟩
      rw [← hinv]
      simp [tokensText_append, tokensText_single, List.append_assoc]
    · rw [if_neg hc]
      refine ⟨_, rfl, ?_, by simp [validMode, h], by simp [h]⟩
      simp [← hinv, List.append_assoc]
  · -- whitespace mode
    by_cases h1 : isStartOfTag c = true
    · rw [if_pos h1]
      have hc : c = '<' := by simpa [isStartOfTag] using h1
      refine ⟨_, rfl, ?_, by simp [validMode], by simp⟩
      rw [← hinv, tokensText_pushWord]
      simp [hc]
    · rw [if_neg h1]
      by_cases h2 : isWhitespace c = true
      · rw [if_pos h2]
        refine ⟨_, rfl, ?_, by simp [validMode, h], by simp [h]⟩
        simp [← hinv, List.append_assoc]
      · rw [if_neg h2]
        refine ⟨_, rfl, ?_, ?_, ?_⟩
        · apply charModeStep_text
          by_cases hcw : st.currentWord = [] <;>
            simp [hcw, tokensText_append, tokensText_single, ← hinv]
        · exact charModeStep_valid _ c (by simp [validMode])
        · exact charModeStep_ne_comment _ c (by simp)

theorem scanAll_text (full : List Char) (hno : ¬ ("<!--".data <:+: full)) :
    ∀ rest consumed st, consumed ++ rest = full →
      tokensText st.words ++ st.currentWord = consumed →
      validMode st.mode → st.mode ≠ "html_comment" →
      ∃ st', scanAll rest st = .ok st' ∧
        tokensText st'.words ++ st'.currentWord = full := by
  intro rest
  induction rest with
  | nil =>
    intro consumed st hfull hinv _ _
    exact ⟨st, rfl, by rw [hinv, ← hfull, List.append_nil]⟩
  | cons c rest' ih =>
    intro consumed st hfull hinv hval hnc
    have hnoc : ¬ ("<!--".data <:+: consumed) := by
      intro hc
      exact hno (hc.trans (List.prefix_append consumed (c :: rest')).isInfix |>.trans
        (by rw [hfull]))
    obtain ⟨st', hstep, hinv', hval', hnc'⟩ := scanStep_text st c consumed hval hnc hinv hnoc
    obtain ⟨st'', hrest, hinv''⟩ := ih (consumed ++ [c]) st'
      (by rw [List.append_assoc, List.singleton_append, hfull]) hinv' hval' hnc'
    exact ⟨st'', by simp [scanAll, hstep, hrest], hinv''⟩

theorem string_foldl_append_data (l : List String) (s : String) :
    (l.foldl (· ++ ·) s).data = s.data ++ (l.map String.data).flatten := by
  induction l generalizing s with
  | nil => simp
  | cons a rest ih =>
    simp [List.foldl_cons, ih, String.data_append, List.append_assoc]

theorem string_join_data (l : List String) :
    (String.join l).data = (l.map String.data).flatten := by
  show (l.foldl (· ++ ·) "").data = _
  rw [string_foldl_append_data]
  rfl

/-- C10: for every input string containing no HTML comment opener,
concatenating the literal `str` fields of the tokens returned by
`htmlToTokens`, in order, reconstructs the input string exactly — no character
is dropped, duplicated or reordered. -/
theorem c10_tokenize_lossless (html : String)
    (hno : ¬ ("<!--".data <:+: html.data)) :
    String.join ((htmlToTokens html).map (·.str)) = html := by
  obtain ⟨st', hrun, hinv⟩ := scanAll_text html.data hno html.data [] initScanState rfl
    rfl (by simp [validMode, initScanState]) (by simp [initScanState])
  have htok : htmlToTokens html =
      st'.words ++ (if st'.currentWord ≠ [] then [mkToken st'.currentWord] else []) := by
    rw [htmlToTokens, htmlToTokensE, hrun]; rfl
  apply String.ext
  rw [string_join_data, htok]
  have hx : tokensText (st'.words ++
      (if st'.currentWord ≠ [] then [mkToken st'.currentWord] else [])) = html.data := by
    rw [tokensText_pushWord, hinv]
  rw [← hx, tokensText, List.map_map]
  rfl

/-- Witness for C10 at the concrete input `"a <b>c"`. -/
theorem c10_tokenize_lossless_witness :
    String.join ((htmlToTokens "a <b>c").map (·.str)) = "a <b>c" :=
  c10_tokenize_lossless "a <b>c" (by decide)

/-! ### Soundness of the key → indices maps -/

theorem mapInsert_lookup (m : List (String × List Nat)) (k : String) (i : Nat)
    (k' : String) :
    mapLookup (mapInsert m k i) k' =
      if k' = k then some ((mapLookup m k).getD [] ++ [i]) else mapLookup m k' := by
  induction m with
  | nil =>
    by_cases h : k' = k
    · subst h; simp [mapInsert, mapLookup]
    · rw [if_neg h]
      show (if k = k' then some [i] else none) = mapLookup [] k'
      rw [if_neg (fun hh => h hh.symm)]
      rfl
  | cons p rest ih =>
    obtain ⟨k0, l0⟩ := p
    by_cases h0 : k0 = k
    · rw [show mapInsert ((k0, l0) :: rest) k i = (k0, l0 ++ [i]) :: rest from by
        simp [mapInsert, h0]]
      by_cases h : k' = k
      · have hk0 : k0 = k' := h0.trans h.symm
        rw [if_pos h]
        show (if k0 = k' then some (l0 ++ [i]) else mapLookup rest k') = _
        rw [if_pos hk0,
          show mapLookup ((k0, l0) :: rest) k = some l0 from by simp [mapLookup, h0]]
        rfl
      · have hk0 : ¬ k0 = k' := fun hh => h (hh.symm.trans h0)
        rw [if_neg h]
        show (if k0 = k' then some (l0 ++ [i]) else mapLookup rest k') =
          (if k0 = k' then some l0 else mapLookup rest k')
        rw [if_neg hk0, if_neg hk0]
    · rw [show mapInsert ((k0, l0) :: rest) k i = (k0, l0) :: mapInsert rest k i from by
        simp [mapInsert, h0]]
      show (if k0 = k' then some l0 else mapLookup (mapInsert rest k i) k') = _
      by_cases hk : k0 = k'
      · have h : ¬ k' = k := fun hh => h0 (hk.trans hh)
        rw [if_pos hk, if_neg h]
        show _ = (if k0 = k' then some l0 else mapLookup rest k')
        rw [if_pos hk]
      · rw [if_neg hk, ih]
        have hlk : mapLookup ((k0, l0) :: rest) k = mapLookup rest k := by
          simp [mapLookup, h0]
        have hlk' : mapLookup ((k0, l0) :: rest) k' = mapLookup rest k' := by
          simp [mapLookup, hk]
        rw [hlk, hlk']

theorem goodMap_insert (full : List Token) (m : List (String × List Nat))
    (k : String) (i : Nat) (t : Token)
    (hm : GoodMap full m) (ht : full.get? i = some t) (hk : t.key = k) :
    GoodMap full (mapInsert m k i) := by
  intro k' l hl j hj
  rw [mapInsert_lookup] at hl
  by_cases h : k' = k
  · rw [if_pos h] at hl
    obtain rfl : (mapLookup m k).getD [] ++ [i] = l := by injection hl
    rcases List.mem_append.1 hj with hj | hj
    · cases hml : mapLookup m k with
      | none => rw [hml] at hj; simp at hj
      | some l0 =>
        rw [hml] at hj
        exact h ▸ hm k l0 hml j hj
    · obtain rfl : j = i := by simpa using hj
      exact ⟨t, ht, hk.trans (by rw [h])⟩
  · rw [if_neg h] at hl
    exact hm k' l hl j hj

theorem createMapGo_good (full : List Token) :
    ∀ (ts : List Token) (idx : Nat) (m : List (String × List Nat)),
      GoodMap full m → full.drop idx = ts →
      GoodMap full (createMapGo ts idx m) := by
  intro ts
  induction ts with
  | nil => intro idx m hm _; exact hm
  | cons t rest ih =>
    intro idx m hm hdrop
    have hget : full.get? idx = some t := by
      have h0 : (full.drop idx).get? 0 = some t := by rw [hdrop]; rfl
      rw [List.get?_drop] at h0
      simpa using h0
    have hdrop' : full.drop (idx + 1) = rest := by
      have h1 : (full.drop idx).drop 1 = rest := by rw [hdrop]; rfl
      rw [List.drop_drop] at h1
      simpa [Nat.add_comm] using h1
    exact ih (idx + 1) (mapInsert m t.key idx)
      (goodMap_insert full m t.key idx t hm hget rfl) hdrop'

theorem createMap_good (ts : List Token) : GoodMap ts (createMap ts) :=
  createMapGo_good ts ts 0 [] (fun _ _ h => by simp [mapLookup] at h) rfl

/-! ### Invariants of match construction -/

theorem commonKeyLen_le_left (l1 l2 : List Token) : commonKeyLen l1 l2 ≤ l1.length := by
  induction l1 generalizing l2 with
  | nil => simp [commonKeyLen]
  | cons b bs ih =>
    cases l2 with
    | nil => simp [commonKeyLen]
    | cons a as =>
      by_cases h : b.key = a.key
      · simp only [commonKeyLen, if_pos h, List.length_cons]
        have := ih as
        omega
      · simp [commonKeyLen, h]

theorem commonKeyLen_le_right (l1 l2 : List Token) : commonKeyLen l1 l2 ≤ l2.length := by
  induction l1 generalizing l2 with
  | nil => simp [commonKeyLen]
  | cons b bs ih =>
    cases l2 with
    | nil => simp [commonKeyLen]
    | cons a as =>
      by_cases h : b.key = a.key
      · simp only [commonKeyLen, if_pos h, List.length_cons]
        have := ih as
        omega
      · simp [commonKeyLen, h]

theorem commonKeyLen_spec (l1 l2 : List Token) :
    ∀ j, j < commonKeyLen l1 l2 →
      (l1.get? j).map (·.key) = (l2.get? j).map (·.key) := by
  induction l1 generalizing l2 with
  | nil => intro j hj; simp [commonKeyLen] at hj
  | cons b bs ih =>
    intro j hj
    cases l2 with
    | nil => simp [commonKeyLen] at hj
    | cons a as =>
      by_cases h : b.key = a.key
      · cases j with
        | zero => simpa using h
        | succ j' =>
          simp only [commonKeyLen, if_pos h] at hj
          simpa using ih as j' (by omega)
      · simp [commonKeyLen, h] at hj

theorem makeMatch_good (bs as L : Nat) (seg : Segment)
    (hL : 1 ≤ L) (hb : bs + L ≤ seg.beforeTokens.length)
    (ha : as + L ≤ seg.afterTokens.length)
    (hk : ∀ j < L, keyAt seg.beforeTokens (bs + j) = keyAt seg.afterTokens (as + j)) :
    MatchGood (makeMatch bs as L seg) :=
  ⟨hL, rfl, rfl, by simp [makeMatch], by simp [makeMatch], by simp [makeMatch],
   by simp [makeMatch], hb, ha, hk⟩

theorem getFullMatch_good (seg : Segment) (bs as minLen : Nat) (lb : Bool) (m : Match)
    (hk : keyAt seg.beforeTokens bs = keyAt seg.afterTokens as)
    (hm : getFullMatch seg bs as minLen lb = some m) :
    MatchGood m ∧ m.segment = seg := by
  simp only [getFullMatch] at hm
  by_cases h1 : bs + minLen ≥ seg.beforeTokens.length ∨
      as + minLen ≥ seg.afterTokens.length
  · rw [if_pos h1] at hm; cases hm
  · rw [if_neg h1] at hm
    push_neg at h1
    obtain ⟨hblt, halt⟩ := h1
    by_cases h2 : minLen ≠ 0 ∧
        keyAt seg.beforeTokens (bs + minLen) ≠ keyAt seg.afterTokens (as + minLen)
    · rw [if_pos h2] at hm; cases hm
    · rw [if_neg h2] at hm
      have hkeys : ∀ j <
          commonKeyLen (seg.beforeTokens.drop (bs + 1)) (seg.afterTokens.drop (as + 1)) + 1,
          keyAt seg.beforeTokens (bs + j) = keyAt seg.afterTokens (as + j) := by
        intro j hj
        cases j with
        | zero => simpa using hk
        | succ j' =>
          have hcl : j' <
              commonKeyLen (seg.beforeTokens.drop (bs + 1)) (seg.afterTokens.drop (as + 1)) := by
            omega
          have h := commonKeyLen_spec
            (seg.beforeTokens.drop (bs + 1)) (seg.afterTokens.drop (as + 1)) j' hcl
          rw [List.get?_drop, List.get?_drop] at h
          have e1 : bs + 1 + j' = bs + (j' + 1) := by omega
          have e2 : as + 1 + j' = as + (j' + 1) := by omega
          rw [e1, e2] at h
          exact h
      have hlenb : bs +
          (commonKeyLen (seg.beforeTokens.drop (bs + 1)) (seg.afterTokens.drop (as + 1)) + 1) ≤
          seg.beforeTokens.length := by
        have h := commonKeyLen_le_left
          (seg.beforeTokens.drop (bs + 1)) (seg.afterTokens.drop (as + 1))
        rw [List.length_drop] at h
        omega
      have hlena : as +
          (commonKeyLen (seg.beforeTokens.drop (bs + 1)) (seg.afterTokens.drop (as + 1)) + 1) ≤
          seg.afterTokens.length := by
        have h := commonKeyLen_le_right
          (seg.beforeTokens.drop (bs + 1)) (seg.afterTokens.drop (as + 1))
        rw [List.length_drop] at h
        omega
      by_cases h3 : (lb = true) ∧ bs > 0 ∧ as > 0 ∧
          keyAt seg.beforeTokens (bs - 1) = some " " ∧
          keyAt seg.afterTokens (as - 1) = some " "
      · rw [if_pos h3] at hm
        obtain rfl : makeMatch (bs - 1) (as - 1)
            (commonKeyLen (seg.beforeTokens.drop (bs + 1))
              (seg.afterTokens.drop (as + 1)) + 1 + 1) seg = m := by
          injection hm
        refine ⟨makeMatch_good _ _ _ _ (by omega) (by omega) (by omega) ?_, rfl⟩
        intro j hj
        cases j with
        | zero =>
          show keyAt seg.beforeTokens (bs - 1 + 0) = keyAt seg.afterTokens (as - 1 + 0)
          rw [Nat.add_zero, Nat.add_zero, h3.2.2.2.1, h3.2.2.2.2]
        | succ j' =>
          have e1 : bs - 1 + (j' + 1) = bs + j' := by omega
          have e2 : as - 1 + (j' + 1) = as + j' := by omega
          rw [e1, e2]
          exact hkeys j' (by omega)
      · rw [if_neg h3] at hm
        obtain rfl : makeMatch bs as
            (commonKeyLen (seg.beforeTokens.drop (bs + 1))
              (seg.afterTokens.drop (as + 1)) + 1) seg = m := by
          injection hm
        exact ⟨makeMatch_good _ _ _ _ (by omega) hlenb hlena hkeys, rfl⟩

theorem scanLocations_step_good (seg : Segment) (bi i n : Nat) (lb : Bool)
    (key : String) (best : Option Match)
    (hb : ∀ m, best = some m → MatchGood m ∧ m.segment = seg)
    (hbk : keyAt seg.beforeTokens bi = some key)
    (hik : keyAt seg.afterTokens i = some key) :
    ∀ m, (match getFullMatch seg bi i n lb with
          | some mm => if mm.length > n then some mm else best
          | none => best) = some m → MatchGood m ∧ m.segment = seg := by
  intro m
  cases hf : getFullMatch seg bi i n lb with
  | none => exact hb m
  | some mf =>
    show (if mf.length > n then some mf else best) = some m →
      MatchGood m ∧ m.segment = seg
    by_cases hgt : mf.length > n
    · rw [if_pos hgt]
      intro hm
      have hmf : mf = m := by injection hm
      exact hmf ▸ getFullMatch_good seg bi i n lb mf (hbk.trans hik.symm) hf
    · rw [if_neg hgt]
      exact hb m

theorem scanLocations_good (seg : Segment) (bi : Nat) (lb : Bool) (key : String)
    (hbk : keyAt seg.beforeTokens bi = some key) :
    ∀ (locs : List Nat) (best : Option Match),
      (∀ m, best = some m → MatchGood m ∧ m.segment = seg) →
      (∀ i ∈ locs, keyAt seg.afterTokens i = some key) →
      ∀ m, scanLocations seg bi lb locs best = some m → MatchGood m ∧ m.segment = seg := by
  intro locs
  induction locs with
  | nil => intro best hb _ m hm; exact hb m hm
  | cons i rest ih =>
    intro best hb hlocs m hm
    rw [scanLocations, List.foldl_cons] at hm
    refine ih _ ?_ (fun j hj => hlocs j (List.mem_cons_of_mem i hj)) m hm
    exact scanLocations_step_good seg bi i _ lb key best hb hbk
      (hlocs i (List.mem_cons_self i rest))

theorem findBestMatchGo_good (seg : Segment) (hwf : SegWf seg) :
    ∀ (fuel idx : Nat) (ls : Option Nat) (best : Option Match),
      (∀ m, best = some m → MatchGood m ∧ m.segment = seg) →
      ∀ m, findBestMatchGo seg fuel idx ls best = some m →
        MatchGood m ∧ m.segment = seg := by
  intro fuel
  induction fuel with
  | zero => intro idx ls best hb m hm; exact hb m hm
  | succ fuel ih =>
    intro idx ls best hb m hm
    simp only [findBestMatchGo] at hm
    by_cases hidx : idx < seg.beforeTokens.length
    · rw [if_pos hidx] at hm
      by_cases hbail : shouldBail (seg.beforeTokens.length - idx) best = true
      · rw [if_pos hbail] at hm; exact hb m hm
      · rw [if_neg hbail] at hm
        cases hg : seg.beforeTokens.get? idx with
        | none => simp only [hg] at hm; exact hb m hm
        | some tok =>
          simp only [hg] at hm
          by_cases hsp : tok.key = " "
          · rw [if_pos hsp] at hm
            exact ih _ _ _ hb m hm
          · rw [if_neg hsp] at hm
            cases hl : mapLookup seg.afterMap tok.key with
            | none => simp only [hl] at hm; exact ih _ _ _ hb m hm
            | some locs =>
              simp only [hl] at hm
              refine ih _ _ _ ?_ m hm
              refine scanLocations_good seg idx _ tok.key ?_ locs best hb ?_
              · show (seg.beforeTokens.get? idx).map (·.key) = some tok.key
                rw [hg]
                rfl
              · intro i hi
                rw [hwf] at hl
                obtain ⟨t, hti, htk⟩ := createMap_good seg.afterTokens tok.key locs hl i hi
                show (seg.afterTokens.get? i).map (·.key) = some tok.key
                rw [hti]
                simpa using htk
    · rw [if_neg hidx] at hm; exact hb m hm

theorem findBestMatch_good (seg : Segment) (hwf : SegWf seg) (m : Match)
    (hm : findBestMatch seg = some m) : MatchGood m ∧ m.segment = seg :=
  findBestMatchGo_good seg hwf _ 0 none none (fun _ h => by cases h) m hm

/-! ### The ordered match tree -/

theorem compareMatches_eq_neg_one (v m : Match) :
    compareMatches v m = -1 ↔ EntirelyBefore m v := by
  unfold compareMatches EntirelyBefore
  split_ifs with h1 h2
  · simpa using h1
  · constructor
    · intro h; exact absurd h (by decide)
    · intro h; exact absurd h h1
  · constructor
    · intro h; exact absurd h (by decide)
    · intro h; exact absurd h h1

theorem compareMatches_eq_one (v m : Match) :
    compareMatches v m = 1 ↔ (¬ EntirelyBefore m v ∧ EntirelyBefore v m) := by
  unfold compareMatches EntirelyBefore
  split_ifs with h1 h2
  · constructor
    · intro h; exact absurd h (by decide)
    · intro h; exact absurd h1 h.1
  · constructor
    · intro _; exact ⟨h1, h2⟩
    · intro _; rfl
  · constructor
    · intro h; exact absurd h (by decide)
    · intro h; exact absurd h.2 h2

theorem treeAll_addToNode (P : Match → Prop) (t : MTree) (m : Match)
    (ht : TreeAll P t) (hm : P m) : TreeAll P (addToNode t m) := by
  induction t with
  | leaf => exact ⟨trivial, hm, trivial⟩
  | node l v r ihl ihr =>
    obtain ⟨hl, hv, hr⟩ := ht
    unfold addToNode
    by_cases h1 : compareMatches v m = -1
    · rw [if_pos h1]; exact ⟨ihl hl, hv, hr⟩
    · rw [if_neg h1]
      by_cases h2 : compareMatches v m = 1
      · rw [if_pos h2]; exact ⟨hl, hv, ihr hr⟩
      · rw [if_neg h2]; exact ⟨hl, hv, hr⟩

theorem bstInv_addToNode (t : MTree) (m : Match) (ht : BSTInv t) :
    BSTInv (addToNode t m) := by
  induction t with
  | leaf => exact ⟨trivial, trivial, trivial, trivial⟩
  | node l v r ihl ihr =>
    obtain ⟨hl, hr, hlb, hrb⟩ := ht
    unfold addToNode
    by_cases h1 : compareMatches v m = -1
    · rw [if_pos h1]
      exact ⟨ihl hl, hr,
        treeAll_addToNode _ l m hlb ((compareMatches_eq_neg_one v m).1 h1), hrb⟩
    · rw [if_neg h1]
      by_cases h2 : compareMatches v m = 1
      · rw [if_pos h2]
        exact ⟨hl, ihr hr, hlb,
          treeAll_addToNode _ r m hrb ((compareMatches_eq_one v m).1 h2).2⟩
      · rw [if_neg h2]; exact ⟨hl, hr, hlb, hrb⟩

theorem nodeToArray_all (P : Match → Prop) (t : MTree) (ht : TreeAll P t) :
    ∀ m ∈ nodeToArray t, P m := by
  induction t with
  | leaf => intro m hm; cases hm
  | node l v r ihl ihr =>
    obtain ⟨hl, hv, hr⟩ := ht
    intro m hm
    rcases List.mem_append.1 hm with h | h
    · exact ihl hl m h
    · rcases List.mem_cons.1 h with h | h
      · exact h ▸ hv
      · exact ihr hr m h

theorem nodeToArray_chain (t : MTree) (ht : BSTInv t) :
    List.Chain' EntirelyBefore (nodeToArray t) := by
  induction t with
  | leaf => exact List.chain'_nil
  | node l v r ihl ihr =>
    obtain ⟨hl, hr, hlb, hrb⟩ := ht
    unfold nodeToArray
    rw [List.chain'_append]
    refine ⟨ihl hl, ?_, ?_⟩
    · rw [List.chain'_cons']
      exact ⟨fun y hy => nodeToArray_all _ r hrb y (List.mem_of_mem_head? hy),
        ihr hr⟩
    · intro x hx y hy
      have hx' : x ∈ nodeToArray l := List.mem_of_mem_getLast? hx
      have hyv : v = y := by simpa using hy
      exact hyv ▸ nodeToArray_all _ l hlb x hx'

/-! ### The worklist loop of findMatchingBlocks -/

theorem findMatchingBlocksGo_all (top : Segment) (P : Match → Prop)
    (SegP : Segment → Prop)
    (hmatch : ∀ s m, SegP s → findBestMatch s = some m → m.length ≠ 0 → P m)
    (hleft : ∀ curr m, SegP curr → findBestMatch curr = some m → m.length ≠ 0 →
      SegP (createSegment (top.beforeTokens.take m.segmentStartInBefore)
        (curr.afterTokens.take m.segmentStartInAfter)
        curr.beforeIndex curr.afterIndex))
    (hright : ∀ curr m, SegP curr → findBestMatch curr = some m → m.length ≠ 0 →
      SegP (createSegment
        (curr.beforeTokens.drop (m.segmentEndInBefore + 1).toNat)
        (curr.afterTokens.drop (m.segmentEndInAfter + 1).toNat)
        ((curr.beforeIndex : Int) + m.segmentEndInBefore + 1).toNat
        ((curr.afterIndex : Int) + m.segmentEndInAfter + 1).toNat)) :
    ∀ (fuel : Nat) (stack : List Segment) (t : MTree),
      (∀ s ∈ stack, SegP s) → TreeAll P t →
      TreeAll P (findMatchingBlocksGo top fuel stack t) := by
  intro fuel
  induction fuel with
  | zero => intro stack t _ ht; exact ht
  | succ fuel ih =>
    intro stack t hstack ht
    cases stack with
    | nil => exact ht
    | cons curr rest =>
      have hcurr : SegP curr := hstack curr (List.mem_cons_self curr rest)
      have hrest : ∀ s ∈ rest, SegP s := fun s hs => hstack s (List.mem_cons_of_mem curr hs)
      simp only [findMatchingBlocksGo]
      split
      · exact ih rest t hrest ht
      · rename_i m hf
        by_cases hlen : m.length ≠ 0
        · rw [if_pos hlen]
          refine ih _ _ ?_ (treeAll_addToNode P t m ht (hmatch curr m hcurr hf hlen))
          intro s hs
          rcases List.mem_append.1 hs with hs1 | hs1
          · rcases List.mem_append.1 hs1 with hs2 | hs2
            · by_cases hc : curr.beforeTokens.drop (m.segmentEndInBefore + 1).toNat ≠ [] ∧
                  curr.afterTokens.drop (m.segmentEndInAfter + 1).toNat ≠ []
              · rw [if_pos hc] at hs2
                have hse : s = _ := List.eq_of_mem_singleton hs2
                rw [hse]
                exact hright curr m hcurr hf hlen
              · rw [if_neg hc] at hs2
                cases hs2
            · by_cases hc : m.segmentStartInBefore > 0 ∧ m.segmentStartInAfter > 0
              · rw [if_pos hc] at hs2
                have hse : s = _ := List.eq_of_mem_singleton hs2
                rw [hse]
                exact hleft curr m hcurr hf hlen
              · rw [if_neg hc] at hs2
                cases hs2
          · exact hrest s hs1
        · rw [if_neg hlen]
          exact ih rest t hrest ht

theorem findMatchingBlocksGo_bst (top : Segment) :
    ∀ (fuel : Nat) (stack : List Segment) (t : MTree),
      BSTInv t → BSTInv (findMatchingBlocksGo top fuel stack t) := by
  intro fuel
  induction fuel with
  | zero => intro stack t ht; exact ht
  | succ fuel ih =>
    intro stack t ht
    cases stack with
    | nil => exact ht
    | cons curr rest =>
      simp only [findMatchingBlocksGo]
      split
      · exact ih rest t ht
      · rename_i m hf
        by_cases hlen : m.length ≠ 0
        · rw [if_pos hlen]
          exact ih _ _ (bstInv_addToNode t m ht)
        · rw [if_neg hlen]
          exact ih rest t ht

/-- All matches returned by `findMatchingBlocks` on a well-formed segment are
internally consistent (`MatchGood`). -/
theorem findMatchingBlocks_good (seg : Segment) (hwf : SegWf seg) :
    ∀ m ∈ findMatchingBlocks seg, MatchGood m := by
  intro m hm
  refine nodeToArray_all MatchGood _ ?_ m hm
  refine findMatchingBlocksGo_all seg MatchGood SegWf ?_ ?_ ?_ _ [seg]
    .leaf (fun s hs => by
      have hse : s = seg := by simpa using hs
      rw [hse]; exact hwf) trivial
  · intro s m' hs hf _
    exact (findBestMatch_good s hs m' hf).1
  · intro curr m' _ _ _
    exact rfl
  · intro curr m' _ _ _
    exact rfl

/-- The matches returned by `findMatchingBlocks` are strictly ordered: each
ends strictly before the next starts, on both sides. -/
theorem findMatchingBlocks_chain (seg : Segment) :
    List.Chain' EntirelyBefore (findMatchingBlocks seg) :=
  nodeToArray_chain _ (findMatchingBlocksGo_bst seg _ [seg] .leaf trivial)

/-- On a top-level segment (offsets `0`), every match returned by
`findMatchingBlocks` lies inside the segment's token lists in global
coordinates. -/
theorem findMatchingBlocks_inside (seg : Segment) (hwf : SegWf seg)
    (hb0 : seg.beforeIndex = 0) (ha0 : seg.afterIndex = 0) :
    ∀ m ∈ findMatchingBlocks seg,
      MatchGood m ∧
        MatchInside seg.beforeTokens.length seg.afterTokens.length m := by
  intro m hm
  refine nodeToArray_all
    (fun m' => MatchGood m' ∧
      MatchInside seg.beforeTokens.length seg.afterTokens.length m') _ ?_ m hm
  refine findMatchingBlocksGo_all seg
    (fun m' => MatchGood m' ∧
      MatchInside seg.beforeTokens.length seg.afterTokens.length m')
    (fun s => SegWf s ∧ SegInside seg.beforeTokens.length seg.afterTokens.length s)
    ?_ ?_ ?_ _ [seg] .leaf
    (fun s hs => by
      have : s = seg := by simpa using hs
      subst this
      exact ⟨hwf, by rw [SegInside, hb0, ha0]; omega⟩)
    trivial
  · intro s m' hs hf _
    obtain ⟨hgood, hseg⟩ := findBestMatch_good s hs.1 m' hf
    refine ⟨hgood, ?_, ?_⟩
    · have h1 := hgood.2.1
      have h2 := hgood.2.2.2.2.2.2.2.1
      have h3 := hs.2.1
      rw [hseg] at h1 h2
      omega
    · have h1 := hgood.2.2.1
      have h2 := hgood.2.2.2.2.2.2.2.2.1
      have h3 := hs.2.2
      rw [hseg] at h1 h2
      omega
  · intro curr m' hs hf hlen
    obtain ⟨hgood, hseg⟩ := findBestMatch_good curr hs.1 m' hf
    refine ⟨rfl, ?_, ?_⟩
    · have h1 := hgood.2.2.2.2.2.2.2.1
      have h2 := hs.2.1
      have h3 := hgood.1
      rw [hseg] at h1
      simp only [createSegment, List.length_take]
      omega
    · have h1 := hgood.2.2.2.2.2.2.2.2.1
      have h2 := hs.2.2
      have h3 := hgood.1
      rw [hseg] at h1
      simp only [createSegment, List.length_take]
      omega
  · intro curr m' hs hf hlen
    obtain ⟨hgood, hseg⟩ := findBestMatch_good curr hs.1 m' hf
    have he1 := hgood.2.2.2.2.2.1
    have he2 := hgood.2.2.2.2.2.2.1
    have hb1 := hgood.2.2.2.2.2.2.2.1
    have hb2 := hgood.2.2.2.2.2.2.2.2.1
    have hL := hgood.1
    rw [hseg] at hb1 hb2
    have ht1 : (m'.segmentEndInBefore + 1).toNat =
        m'.segmentStartInBefore + m'.length := by
      rw [he1]; omega
    have ht2 : (m'.segmentEndInAfter + 1).toNat =
        m'.segmentStartInAfter + m'.length := by
      rw [he2]; omega
    have ht3 : ((curr.beforeIndex : Int) + m'.segmentEndInBefore + 1).toNat =
        curr.beforeIndex + m'.segmentStartInBefore + m'.length := by
      rw [he1]; omega
    have ht4 : ((curr.afterIndex : Int) + m'.segmentEndInAfter + 1).toNat =
        curr.afterIndex + m'.segmentStartInAfter + m'.length := by
      rw [he2]; omega
    refine ⟨rfl, ?_, ?_⟩
    · have h2 := hs.2.1
      simp only [createSegment, List.length_drop, ht1, ht3]
      omega
    · have h2 := hs.2.2
      simp only [createSegment, List.length_drop, ht2, ht4]
      omega

/-- C4 (amended): every match produced by `findMatchingBlocks` satisfies the
length identity `length = endInBefore - startInBefore + 1 =
endInAfter - startInAfter + 1`, and the matched keys are pairwise equal across
corresponding *segment-local* positions of the segment in which the match was
found. (The global-position key equality of the original claim fails; see
`c4_counterexample`.) -/
theorem c4_match_invariants_amended (seg : Segment) (hwf : SegWf seg) :
    ∀ m ∈ findMatchingBlocks seg,
      (m.length : Int) = m.endInBefore - m.startInBefore + 1 ∧
      (m.length : Int) = m.endInAfter - m.startInAfter + 1 ∧
      ∀ j < m.length,
        keyAt m.segment.beforeTokens (m.segmentStartInBefore + j) =
          keyAt m.segment.afterTokens (m.segmentStartInAfter + j) := by
  intro m hm
  have hgood := findMatchingBlocks_good seg hwf m hm
  obtain ⟨hL, hsb, hsa, heb, hea, -, -, -, -, hkeys⟩ := hgood
  refine ⟨by rw [heb]; ring, by rw [hea]; ring, hkeys⟩

/-- Witness for the amended C4 at a concrete one-token segment: the single
match returned for before = after = `[createToken "x"]` satisfies the length
identity and the segment-local key equality at offset `0`. -/
theorem c4_match_invariants_witness :
    ((makeMatch 0 0 1 (createSegment [createToken "x"] [createToken "x"] 0 0)).length : Int) =
        (makeMatch 0 0 1 (createSegment [createToken "x"] [createToken "x"] 0 0)).endInBefore -
          (makeMatch 0 0 1 (createSegment [createToken "x"] [createToken "x"] 0 0)).startInBefore + 1 ∧
      ((makeMatch 0 0 1 (createSegment [createToken "x"] [createToken "x"] 0 0)).length : Int) =
        (makeMatch 0 0 1 (createSegment [createToken "x"] [createToken "x"] 0 0)).endInAfter -
          (makeMatch 0 0 1 (createSegment [createToken "x"] [createToken "x"] 0 0)).startInAfter + 1 ∧
      ∀ j < (makeMatch 0 0 1 (createSegment [createToken "x"] [createToken "x"] 0 0)).length,
        keyAt (makeMatch 0 0 1 (createSegment [createToken "x"] [createToken "x"] 0 0)).segment.beforeTokens
            ((makeMatch 0 0 1 (createSegment [createToken "x"] [createToken "x"] 0 0)).segmentStartInBefore + j) =
          keyAt (makeMatch 0 0 1 (createSegment [createToken "x"] [createToken "x"] 0 0)).segment.afterTokens
            ((makeMatch 0 0 1 (createSegment [createToken "x"] [createToken "x"] 0 0)).segmentStartInAfter + j) :=
  c4_match_invariants_amended (createSegment [createToken "x"] [createToken "x"] 0 0) rfl
    (makeMatch 0 0 1 (createSegment [createToken "x"] [createToken "x"] 0 0))
    (by rw [show findMatchingBlocks (createSegment [createToken "x"] [createToken "x"] 0 0) =
          [makeMatch 0 0 1 (createSegment [createToken "x"] [createToken "x"] 0 0)] from rfl]
        exact List.mem_singleton_self _)

/-! ### The post-processing pass -/

theorem regexSingleWs_objectArray (l : List Token) :
    regexSingleWs (jsObjectArrayToString l) = false := by
  match l with
  | [] => rfl
  | [_] => rfl
  | _ :: t :: rest =>
    show regexSingleWs ("[object Object]," ++ jsObjectArrayToString (t :: rest)) = false
    rw [regexSingleWs, String.data_append]
    rfl

/-- `isSingleWhitespace` never returns `true`: its regex is applied to the
`toString` of an array of token *objects*, which is a comma-joined sequence of
`"[object Object]"` (or empty) and never a single whitespace character. -/
theorem isSingleWhitespace_false (bts : List Token) (op : Operation) :
    isSingleWhitespace bts op = false := by
  rw [isSingleWhitespace]
  split_ifs with h1 h2 h3
  · rfl
  · rfl
  · rfl
  · exact regexSingleWs_objectArray _

theorem postProcessGo_eq_spec (bts : List Token) :
    ∀ (ops : List Operation) (last : Option ActionKind),
      postProcessGo bts ops last = specDropReplaceRunsGo ops last := by
  intro ops
  induction ops with
  | nil => intro last; rfl
  | cons op rest ih =>
    intro last
    simp only [postProcessGo, specDropReplaceRunsGo, isSingleWhitespace_false,
      Bool.false_eq_true, false_and, false_or]
    split_ifs with h
    · exact ih last
    · rw [ih]

/-- C5 (amended): the post-processing pass of `calculateOperations` drops an
operation exactly when it immediately follows a kept `replace` and is itself a
`replace`; the single-whitespace-equal merge case never fires (see
`isSingleWhitespace_false`), and kept operations are passed through with their
ranges unchanged. -/
theorem c5_postprocess_amended (bts : List Token) (ops : List Operation) :
    postProcess bts ops = specDropReplaceRuns ops :=
  postProcessGo_eq_spec bts ops none

/-! ### Whitespace-only wrappable runs -/

theorem isTag_all_ws (t : String) (h : ∀ c ∈ t.data, jsWhitespace c = true) :
    isTag t = none := by
  rw [isTag, List.dropWhile_eq_nil_iff.2 h]

theorem isVoidTag_all_ws (t : String) (h : ∀ c ∈ t.data, jsWhitespace c = true) :
    isVoidTag t = false := by
  rw [isVoidTag, List.dropWhile_eq_nil_iff.2 h]

theorem wrapperTag_all_ws (t : String) (h : ∀ c ∈ t.data, jsWhitespace c = true) :
    wrapperTag t = none := by
  rw [wrapperTag, isVoidTag_all_ws t h, isTag_all_ws t h]
  rfl

theorem isWrappable_all_ws (t : String) (h : ∀ c ∈ t.data, jsWhitespace c = true) :
    isWrappable t = true := by
  rw [isWrappable, isntTag, isTag_all_ws t h]
  simp [tagTruthy]

theorem tagScan_fold_id :
    ∀ (l : List (Nat × String)) (st : TagScanState),
      (∀ p ∈ l, wrapperTag p.2 = none) →
      l.foldl (fun st p => tagScanStep st p.1 p.2) st = st := by
  intro l
  induction l with
  | nil => intro st _; rfl
  | cons p rest ih =>
    intro st h
    rw [List.foldl_cons,
      show tagScanStep st p.1 p.2 = st from by
        rw [tagScanStep, h p (List.mem_cons_self p rest)]]
    exact ih st fun q hq => h q (List.mem_cons_of_mem p hq)

theorem jsTrimList_all_ws (l : List Char) (h : ∀ c ∈ l, jsWhitespace c = true) :
    jsTrimList l = [] := by
  rw [jsTrimList, List.dropWhile_eq_nil_iff.2 h]
  rfl

theorem groupWrappableRuns_all_true :
    ∀ l : List (String × Bool), (∀ p ∈ l, p.2 = true) →
      groupWrappableRuns l = if l = [] then [] else [(true, l.map (·.1))] := by
  intro l
  induction l with
  | nil => intro _; rfl
  | cons p rest ih =>
    intro h
    obtain ⟨t, w⟩ := p
    have hw : w = true := h (t, w) (List.mem_cons_self _ rest)
    subst hw
    rw [groupWrappableRuns, ih fun q hq => h q (List.mem_cons_of_mem _ hq)]
    cases rest with
    | nil => simp
    | cons q qs => simp

theorem notes_getD_false (notes : List (Bool × Bool))
    (h : ∀ x ∈ notes, x.2 = false) (i : Nat) :
    (((notes.get? i).map (·.2)).getD false) = false := by
  cases hg : notes.get? i with
  | none => rfl
  | some y => simp [h y (List.get?_mem hg)]

theorem combineTokenNotes_ws (mapFn : Bool × List String → String)
    (tagFn : String → String) (tokens : List String)
    (hTagNone : ∀ t ∈ tokens, wrapperTag t = none)
    (hWrapAll : ∀ t ∈ tokens, isWrappable t = true) :
    combineTokenNotes mapFn tagFn tokens =
      if tokens = [] then "" else String.join [mapFn (true, tokens)] := by
  have hmemEnum : ∀ p ∈ tokens.enum, p.2 ∈ tokens := by
    intro p hp
    obtain ⟨i, x⟩ := p
    rw [List.mk_mem_enum_iff_getElem?] at hp
    exact List.getElem?_mem hp
  have hfold : (tokens.enum).foldl (fun st p => tagScanStep st p.1 p.2)
      { tagStack := [], marked := [] } = { tagStack := [], marked := [] } :=
    tagScan_fold_id _ _ fun p hp => hTagNone p.2 (hmemEnum p hp)
  have hnotes : tokenWrapperNotes tokens =
      (tokens.enum).map fun p => (isWrappable p.2, false) := by
    simp only [tokenWrapperNotes]
    rw [hfold]
    rfl
  have hnotes2 : ∀ x ∈ (tokens.enum).map
      (fun p => (isWrappable p.2, (false : Bool))), x.2 = false := by
    intro x hx
    obtain ⟨p, -, rfl⟩ := List.mem_map.1 hx
    rfl
  rw [combineTokenNotes, hnotes]
  have hrw : ((tokens.enum).map fun p =>
      if (((((tokens.enum).map fun p => (isWrappable p.2, (false : Bool))).get? p.1).map
          (·.2)).getD false) = true then tagFn p.2
      else p.2) = tokens := by
    refine Eq.trans (List.map_congr_left ?_) (List.enum_map_snd tokens)
    intro p _
    rw [notes_getD_false _ hnotes2 p.1]
    simp
  rw [hrw, List.map_map]
  have hstat2 : ((tokens.enum).map
      ((·.1) ∘ fun p => (isWrappable p.2, (false : Bool)))) =
      (tokens.enum).map fun _ => true := by
    apply List.map_congr_left
    intro p hp
    exact hWrapAll p.2 (hmemEnum p hp)
  rw [hstat2]
  have hall : ∀ p ∈ tokens.zip ((tokens.enum).map fun _ => (true : Bool)), p.2 = true := by
    intro p hp
    obtain ⟨q, -, hq⟩ := List.mem_map.1 (List.of_mem_zip hp).2
    exact hq.symm
  rw [groupWrappableRuns_all_true _ hall]
  by_cases hc : tokens = []
  · subst hc
    rfl
  · have hzipne : tokens.zip ((tokens.enum).map fun _ => (true : Bool)) ≠ [] := by
      intro hzip
      apply hc
      have hlen := congrArg List.length hzip
      rw [List.length_zip, List.length_map, List.enum_length, Nat.min_self] at hlen
      exact List.eq_nil_of_length_eq_zero hlen
    rw [if_neg hzipne, if_neg hc]
    have hfst : (tokens.zip ((tokens.enum).map fun _ => (true : Bool))).map (·.1) =
        tokens := by
      apply List.map_fst_zip
      rw [List.length_map, List.enum_length]
    rw [List.map_singleton, hfst]

/-- C6 (amended): when rendering an insert or delete operation, the output of
`wrap` is exactly the concatenation of one contribution per maximal
wrappable/unwrappable run of the (tag-rewritten) content, and every maximal
wrappable run whose concatenated token text is empty or whitespace-only
contributes the *empty string* — the wrapper is omitted and the run's
characters are dropped from the output. -/
theorem c6_whitespace_run_dropped (tag : String) (content : List String)
    (opIndex : Nat) (dataPrefixArg className : String) :
    wrap tag content opIndex dataPrefixArg className =
      String.join
        ((groupWrappableRuns
            ((rewrittenTokens (wrapTagFn tag dataPrefixArg opIndex) content).zip
              (wrappableStatuses content))).map
          (wrapMapFn tag (wrapAttrs opIndex dataPrefixArg className))) ∧
    ∀ seg ∈ groupWrappableRuns
        ((rewrittenTokens (wrapTagFn tag dataPrefixArg opIndex) content).zip
          (wrappableStatuses content)),
      seg.1 = true → jsTrimList (String.join seg.2).data = [] →
      wrapMapFn tag (wrapAttrs opIndex dataPrefixArg className) seg = "" := by
  constructor
  · rfl
  · intro seg _ h1 h2
    simp only [wrapMapFn]
    rw [if_pos h1, if_neg (not_not_intro h2)]

/-- Witness for the amended C6 at a concrete input: for the single-space
insert content of `diff "a" "a "`, the single maximal run is wrappable with
whitespace-only text, its contribution is the empty string, and the whole
rendering is empty. -/
theorem c6_whitespace_run_dropped_witness :
    wrapMapFn "ins" (wrapAttrs 1 "" "") (true, [" "]) = "" ∧
    wrap "ins" [" "] 1 "" "" = "" :=
  ⟨(c6_whitespace_run_dropped "ins" [" "] 1 "" "").2 (true, [" "])
      (List.mem_singleton.2 rfl) rfl rfl,
   rfl⟩

/-- C3: for every string `S` and any options, `diff S S … = S` — when the
before and after arguments are exactly equal strings, `diff` returns the
before string unchanged (the exact-equality fast path). -/
theorem c3_diff_identity (S className dataPrefixArg : String) :
    diff S S className dataPrefixArg = S := by
  simp [diff]

/-- C8: `calculateOperations` errors exactly when its before or after token
argument is absent (`none` models JS `null`/`undefined`; an actual token
array, even empty, is truthy and passes the check), and the call `diff`
makes — with both sides freshly tokenized — always succeeds. -/
theorem c8_missing_tokens_error (b a : Option (List Token)) (before after : String) :
    ((∃ e, calculateOperationsChecked b a = .error e) ↔ (b = none ∨ a = none)) ∧
    calculateOperationsChecked (some (htmlToTokens before)) (some (htmlToTokens after)) =
      .ok (calculateOperations (htmlToTokens before) (htmlToTokens after)) := by
  refine ⟨?_, rfl⟩
  cases b <;> cases a <;> simp [calculateOperationsChecked]

/-- C7 (code bug): the tokenizer's atomic-tag set is the fixed
`atomicTagsRegExp`; `diff` takes only `(before, after, className, dataPrefix)`
and exposes no `atomicTags` option that could override it, contrary to its own
documentation. Concretely, `<video>` is unconditionally atomic (one token)
while `<custom>` is unconditionally split, with no parameter to change
either. -/
theorem c7_atomic_set_fixed :
    (htmlToTokens "<video>a b</video>").map (·.str) = ["<video>a b</video>"] ∧
    (htmlToTokens "<custom>a b</custom>").map (·.str) =
      ["<custom>", "a", " ", "b", "</custom>"] := by
  constructor <;> rfl

/-- C4 counterexample: on the token lists `a b c` and `a a c`,
`findMatchingBlocks` returns a match claiming global positions
`startInBefore = startInAfter = 1` of length `1`, but the key of the before
token at index 1 is `"b"` while the key of the after token at index 1 is
`"a"` — the claimed cross-list key equality at corresponding global positions
fails (the left sub-segment is sliced from the top-level segment's before
tokens instead of the current segment's). -/
theorem c4_counterexample :
    ((findMatchingBlocks (createSegment
        [createToken "a", createToken "b", createToken "c"]
        [createToken "a", createToken "a", createToken "c"] 0 0)).get? 1).map
      (fun m => (m.startInBefore, m.startInAfter, m.length)) = some (1, 1, 1) ∧
    keyAt [createToken "a", createToken "b", createToken "c"] 1 = some "b" ∧
    keyAt [createToken "a", createToken "a", createToken "c"] 1 = some "a" ∧
    ("b" : String) ≠ "a" := by
  refine ⟨rfl, rfl, rfl, by decide⟩

/-- C5 counterexample: an `equal` operation that covers exactly one token
whose text is the single whitespace character `" "` and that immediately
follows a kept `replace` operation is *not* dropped by the post-processing
pass (the source stringifies the token objects, so its single-whitespace test
never fires). -/
theorem c5_counterexample :
    calculateOperations
        [⟨"x", "x"⟩, ⟨" ", "S"⟩, ⟨"y", "y"⟩]
        [⟨"u", "u"⟩, ⟨" ", "S"⟩, ⟨"v", "v"⟩] =
      [{ action := .replace, startInBefore := 0, endInBefore := some 0,
         startInAfter := 0, endInAfter := some 0 },
       { action := .equal, startInBefore := 1, endInBefore := some 1,
         startInAfter := 1, endInAfter := some 1 },
       { action := .replace, startInBefore := 2, endInBefore := some 2,
         startInAfter := 2, endInAfter := some 2 }] ∧
    ((([⟨"x", "x"⟩, ⟨" ", "S"⟩, ⟨"y", "y"⟩] : List Token).get? 1).map (·.str)) = some " " ∧
    jsWhitespace ' ' = true := by
  refine ⟨rfl, rfl, rfl⟩

/-- C6 counterexample: rendering the insert operation produced by
`diff "a" "a "` — whose single maximal wrappable run has the whitespace-only
text `" "` — yields the empty string, not the bare run content: the run's
characters are dropped from the output (`diff "a" "a " = "a"`). -/
theorem c6_counterexample :
    opsInsert
        { action := .insert, startInBefore := 1, endInBefore := none,
          startInAfter := 1, endInAfter := some 1 }
        (htmlToTokens "a") (htmlToTokens "a ") 1 "" "" = "" ∧
    ((opAfterSlice
        { action := .insert, startInBefore := 1, endInBefore := none,
          startInAfter := 1, endInAfter := some 1 }
        (htmlToTokens "a ")).map (·.str)) = [" "] ∧
    calculateOperations (htmlToTokens "a") (htmlToTokens "a ") =
      [{ action := .equal, startInBefore := 0, endInBefore := some 0,
         startInAfter := 0, endInAfter := some 0 },
       { action := .insert, startInBefore := 1, endInBefore := none,
         startInAfter := 1, endInAfter := some 1 }] ∧
    diff "a" "a " "" "" = "a" ∧
    ("" : String) ≠ " " := by
  refine ⟨rfl, rfl, rfl, rfl, by decide⟩

/-! ### Operation coverage and content conservation (C1, C2) -/

theorem chainFrom_le : ∀ (ranges : List (Int × Int)) (c stop : Int),
    chainFrom c stop ranges → c ≤ stop := by
  intro ranges
  induction ranges with
  | nil =>
    intro c stop h
    exact le_of_eq h
  | cons r rest ih =>
    intro c stop h
    obtain ⟨s, e⟩ := r
    obtain ⟨hs, hse, hrest⟩ := h
    have := ih (e + 1) stop hrest
    omega

theorem tokensText_flatten : ∀ ll : List (List Token),
    (ll.map tokensText).flatten = tokensText ll.flatten := by
  intro ll
  induction ll with
  | nil => rfl
  | cons ts rest ih =>
    simp only [List.map_cons, List.flatten_cons, tokensText_append, ih]

theorem chainFrom_flatten (l : List Token) :
    ∀ (ranges : List (Int × Int)) (c stop : Int),
      chainFrom c stop ranges → 0 ≤ c →
      (ranges.map (sliceRange l)).flatten =
        (l.drop c.toNat).take (stop - c).toNat := by
  intro ranges
  induction ranges with
  | nil =>
    intro c stop h _
    have hc : c = stop := h
    subst hc
    simp
  | cons r rest ih =>
    intro c stop h hc
    obtain ⟨s, e⟩ := r
    obtain ⟨hs, hse, hrest⟩ := h
    subst hs
    have hstop := chainFrom_le rest (e + 1) stop hrest
    have hrec := ih (e + 1) stop hrest (by omega)
    simp only [List.map_cons, List.flatten_cons, hrec]
    have hsplit : (stop - s).toNat = (e + 1 - s).toNat + (stop - (e + 1)).toNat := by
      omega
    have hdd : s.toNat + (e + 1 - s).toNat = (e + 1).toNat := by omega
    rw [hsplit, List.take_add, List.drop_drop, hdd]
    rfl

theorem opsFromMatches_cons_eq (m : Match) (rest : List Match) (posB posA : Int) :
    opsFromMatches (m :: rest) posB posA =
      (if posB = (m.startInBefore : Int) then
         (if posA = (m.startInAfter : Int) then ([] : List Operation)
          else [{ action := .insert, startInBefore := posB, endInBefore := none,
                  startInAfter := posA, endInAfter := some ((m.startInAfter : Int) - 1) }])
       else if posA = (m.startInAfter : Int) then
         [{ action := .delete, startInBefore := posB,
            endInBefore := some ((m.startInBefore : Int) - 1),
            startInAfter := posA, endInAfter := none }]
       else
         [{ action := .replace, startInBefore := posB,
            endInBefore := some ((m.startInBefore : Int) - 1),
            startInAfter := posA, endInAfter := some ((m.startInAfter : Int) - 1) }]) ++
      (if m.length = 0 then ([] : List Operation)
       else [{ action := .equal, startInBefore := (m.startInBefore : Int),
               endInBefore := some m.endInBefore,
               startInAfter := (m.startInAfter : Int),
               endInAfter := some m.endInAfter }]) ++
      opsFromMatches rest (m.endInBefore + 1) (m.endInAfter + 1) := by
  by_cases hB : posB = (m.startInBefore : Int) <;>
    by_cases hA : posA = (m.startInAfter : Int) <;>
    by_cases hL : m.length = 0 <;>
    simp [opsFromMatches, hB, hA, hL]

theorem beforeRanges_cons_insert (pB pA y : Int) (ops : List Operation) :
    beforeRanges
        ({ action := .insert, startInBefore := pB, endInBefore := none,
           startInAfter := pA, endInAfter := some y } :: ops) =
      beforeRanges ops := rfl

theorem beforeRanges_cons_delete (pB x pA : Int) (ops : List Operation) :
    beforeRanges
        ({ action := .delete, startInBefore := pB, endInBefore := some x,
           startInAfter := pA, endInAfter := none } :: ops) =
      (pB, x) :: beforeRanges ops := rfl

theorem beforeRanges_cons_replace (pB x pA y : Int) (ops : List Operation) :
    beforeRanges
        ({ action := .replace, startInBefore := pB, endInBefore := some x,
           startInAfter := pA, endInAfter := some y } :: ops) =
      (pB, x) :: beforeRanges ops := rfl

theorem beforeRanges_cons_equal (pB x pA y : Int) (ops : List Operation) :
    beforeRanges
        ({ action := .equal, startInBefore := pB, endInBefore := some x,
           startInAfter := pA, endInAfter := some y } :: ops) =
      (pB, x) :: beforeRanges ops := rfl

theorem afterRanges_cons_insert (pB pA y : Int) (ops : List Operation) :
    afterRanges
        ({ action := .insert, startInBefore := pB, endInBefore := none,
           startInAfter := pA, endInAfter := some y } :: ops) =
      (pA, y) :: afterRanges ops := rfl

theorem afterRanges_cons_delete (pB x pA : Int) (ops : List Operation) :
    afterRanges
        ({ action := .delete, startInBefore := pB, endInBefore := some x,
           startInAfter := pA, endInAfter := none } :: ops) =
      afterRanges ops := rfl

theorem afterRanges_cons_replace (pB x pA y : Int) (ops : List Operation) :
    afterRanges
        ({ action := .replace, startInBefore := pB, endInBefore := some x,
           startInAfter := pA, endInAfter := some y } :: ops) =
      (pA, y) :: afterRanges ops := rfl

theorem afterRanges_cons_equal (pB x pA y : Int) (ops : List Operation) :
    afterRanges
        ({ action := .equal, startInBefore := pB, endInBefore := some x,
           startInAfter := pA, endInAfter := some y } :: ops) =
      (pA, y) :: afterRanges ops := rfl

theorem opsFromMatches_ranges :
    ∀ (ms : List Match) (posB posA : Int),
      (∀ m ∈ ms, m.endInBefore = (m.startInBefore : Int) + m.length - 1 ∧
          m.endInAfter = (m.startInAfter : Int) + m.length - 1) →
      List.Chain' EntirelyBefore ms →
      (∀ m0, ms.head? = some m0 →
        posB ≤ (m0.startInBefore : Int) ∧ posA ≤ (m0.startInAfter : Int)) →
      chainFrom posB (opsEndB posB ms) (beforeRanges (opsFromMatches ms posB posA)) ∧
      chainFrom posA (opsEndA posA ms) (afterRanges (opsFromMatches ms posB posA)) := by
  intro ms
  induction ms with
  | nil =>
    intro posB posA _ _ _
    exact ⟨rfl, rfl⟩
  | cons m rest ih =>
    intro posB posA hOK hchain hhead
    obtain ⟨hEB, hEA⟩ := hOK m (List.mem_cons_self m rest)
    obtain ⟨hpB, hpA⟩ := hhead m rfl
    have hOK' : ∀ x ∈ rest, x.endInBefore = (x.startInBefore : Int) + x.length - 1 ∧
        x.endInAfter = (x.startInAfter : Int) + x.length - 1 :=
      fun x hx => hOK x (List.mem_cons_of_mem m hx)
    have hcc := List.chain'_cons'.1 hchain
    have hhead' : ∀ m0, rest.head? = some m0 →
        m.endInBefore + 1 ≤ (m0.startInBefore : Int) ∧
        m.endInAfter + 1 ≤ (m0.startInAfter : Int) := by
      intro m0 hm0
      have hu : m.endInBefore < (m0.startInBefore : Int) := (hcc.1 m0 hm0).1
      have hv : m.endInAfter < (m0.startInAfter : Int) := (hcc.1 m0 hm0).2
      omega
    have IH := ih (m.endInBefore + 1) (m.endInAfter + 1) hOK' hcc.2 hhead'
    have hEndB : opsEndB posB (m :: rest) = opsEndB (m.endInBefore + 1) rest := by
      cases rest with
      | nil => rfl
      | cons r rs =>
        simp only [opsEndB, List.getLast?_cons_cons]
        cases hgl : (r :: rs).getLast? with
        | none => simp at hgl
        | some x => rfl
    have hEndA : opsEndA posA (m :: rest) = opsEndA (m.endInAfter + 1) rest := by
      cases rest with
      | nil => rfl
      | cons r rs =>
        simp only [opsEndA, List.getLast?_cons_cons]
        cases hgl : (r :: rs).getLast? with
        | none => simp at hgl
        | some x => rfl
    rw [hEndB, hEndA, opsFromMatches_cons_eq]
    by_cases hB : posB = (m.startInBefore : Int)
    · rw [if_pos hB]
      by_cases hA : posA = (m.startInAfter : Int)
      · rw [if_pos hA]
        by_cases hL : m.length = 0
        · rw [if_pos hL]
          simp only [List.nil_append]
          have e1 : posB = m.endInBefore + 1 := by omega
          have e2 : posA = m.endInAfter + 1 := by omega
          rw [e1, e2]
          exact IH
        · rw [if_neg hL]
          simp only [List.nil_append, List.singleton_append,
            beforeRanges_cons_equal, afterRanges_cons_equal, chainFrom]
          exact ⟨⟨by omega, by omega, IH.1⟩, ⟨by omega, by omega, IH.2⟩⟩
      · rw [if_neg hA]
        by_cases hL : m.length = 0
        · rw [if_pos hL]
          simp only [List.append_nil, List.singleton_append,
            beforeRanges_cons_insert, afterRanges_cons_insert, chainFrom]
          refine ⟨?_, trivial, by omega, ?_⟩
          · have e1 : posB = m.endInBefore + 1 := by omega
            rw [e1]
            exact IH.1
          · have e2 : ((m.startInAfter : Int) - 1) + 1 = m.endInAfter + 1 := by omega
            rw [e2]
            exact IH.2
        · rw [if_neg hL]
          simp only [List.singleton_append, List.cons_append,
            beforeRanges_cons_insert, beforeRanges_cons_equal,
            afterRanges_cons_insert, afterRanges_cons_equal, chainFrom]
          exact ⟨⟨by omega, by omega, IH.1⟩,
            ⟨trivial, by omega, by omega, by omega, IH.2⟩⟩
    · rw [if_neg hB]
      by_cases hA : posA = (m.startInAfter : Int)
      · rw [if_pos hA]
        by_cases hL : m.length = 0
        · rw [if_pos hL]
          simp only [List.append_nil, List.singleton_append,
            beforeRanges_cons_delete, afterRanges_cons_delete, chainFrom]
          refine ⟨⟨trivial, by omega, ?_⟩, ?_⟩
          · have e1 : ((m.startInBefore : Int) - 1) + 1 = m.endInBefore + 1 := by omega
            rw [e1]
            exact IH.1
          · have e2 : posA = m.endInAfter + 1 := by omega
            rw [e2]
            exact IH.2
        · rw [if_neg hL]
          simp only [List.singleton_append, List.cons_append,
            beforeRanges_cons_delete, beforeRanges_cons_equal,
            afterRanges_cons_delete, afterRanges_cons_equal, chainFrom]
          exact ⟨⟨trivial, by omega, by omega, by omega, IH.1⟩,
            ⟨by omega, by omega, IH.2⟩⟩
      · rw [if_neg hA]
        by_cases hL : m.length = 0
        · rw [if_pos hL]
          simp only [List.append_nil, List.singleton_append,
            beforeRanges_cons_replace, afterRanges_cons_replace, chainFrom]
          refine ⟨⟨trivial, by omega, ?_⟩, ⟨trivial, by omega, ?_⟩⟩
          · have e1 : ((m.startInBefore : Int) - 1) + 1 = m.endInBefore + 1 := by omega
            rw [e1]
            exact IH.1
          · have e2 : ((m.startInAfter : Int) - 1) + 1 = m.endInAfter + 1 := by omega
            rw [e2]
            exact IH.2
        · rw [if_neg hL]
          simp only [List.singleton_append, List.cons_append,
            beforeRanges_cons_replace, beforeRanges_cons_equal,
            afterRanges_cons_replace, afterRanges_cons_equal, chainFrom]
          exact ⟨⟨trivial, by omega, by omega, by omega, IH.1⟩,
            ⟨trivial, by omega, by omega, by omega, IH.2⟩⟩

theorem opsFromMatches_sides :
    ∀ (ms : List Match) (posB posA : Int), ∀ op ∈ opsFromMatches ms posB posA,
      (op.endInBefore = none ↔ op.action = .insert) ∧
      (op.endInAfter = none ↔ op.action = .delete) := by
  intro ms
  induction ms with
  | nil =>
    intro posB posA op hop
    exact absurd hop (List.not_mem_nil op)
  | cons m rest ih =>
    intro posB posA op hop
    rw [opsFromMatches_cons_eq] at hop
    rcases List.mem_append.1 hop with hop1 | hop2
    · rcases List.mem_append.1 hop1 with hgap | heq
      · by_cases hB : posB = (m.startInBefore : Int)
        · rw [if_pos hB] at hgap
          by_cases hA : posA = (m.startInAfter : Int)
          · rw [if_pos hA] at hgap
            exact absurd hgap (List.not_mem_nil op)
          · rw [if_neg hA] at hgap
            obtain rfl := List.mem_singleton.1 hgap
            refine ⟨by simp, by simp⟩
        · rw [if_neg hB] at hgap
          by_cases hA : posA = (m.startInAfter : Int)
          · rw [if_pos hA] at hgap
            obtain rfl := List.mem_singleton.1 hgap
            refine ⟨by simp, by simp⟩
          · rw [if_neg hA] at hgap
            obtain rfl := List.mem_singleton.1 hgap
            refine ⟨by simp, by simp⟩
      · by_cases hL : m.length = 0
        · rw [if_pos hL] at heq
          exact absurd heq (List.not_mem_nil op)
        · rw [if_neg hL] at heq
          obtain rfl := List.mem_singleton.1 heq
          refine ⟨by simp, by simp⟩
    · exact ih (m.endInBefore + 1) (m.endInAfter + 1) op hop2

theorem opsFromMatches_noRR :
    ∀ (ms : List Match) (posB posA : Int),
      (∀ m ∈ ms.dropLast, m.length ≠ 0) →
      NoRR (opsFromMatches ms posB posA) := by
  intro ms
  induction ms with
  | nil =>
    intro posB posA _
    exact List.chain'_nil
  | cons m rest ih =>
    intro posB posA h
    by_cases hre : rest = []
    · subst hre
      rw [opsFromMatches_cons_eq]
      by_cases hB : posB = (m.startInBefore : Int) <;>
        by_cases hA : posA = (m.startInAfter : Int) <;>
        by_cases hL : m.length = 0 <;>
        simp [NoRR, hB, hA, hL, opsFromMatches, List.chain'_cons, List.chain'_singleton]
    · have hm : m.length ≠ 0 := by
        cases rest with
        | nil => exact absurd rfl hre
        | cons r rs => exact h m (by simp)
      have ih' := ih posB posA (fun x hx => h x (by
        cases rest with
        | nil => exact absurd hx (List.not_mem_nil x)
        | cons r rs => simp [List.dropLast_cons₂] at hx ⊢; exact Or.inr hx))
      rw [opsFromMatches_cons_eq, if_neg hm]
      have htail : NoRR (opsFromMatches rest (m.endInBefore + 1) (m.endInAfter + 1)) :=
        ih (m.endInBefore + 1) (m.endInAfter + 1) (fun x hx => h x (by
          cases rest with
          | nil => exact absurd hx (List.not_mem_nil x)
          | cons r rs => simp [List.dropLast_cons₂] at hx ⊢; exact Or.inr hx))
      by_cases hB : posB = (m.startInBefore : Int)
      · rw [if_pos hB]
        by_cases hA : posA = (m.startInAfter : Int)
        · rw [if_pos hA]
          simp only [List.nil_append, List.singleton_append]
          refine List.chain'_cons'.2 ⟨?_, htail⟩
          intro y _
          simp
        · rw [if_neg hA]
          simp only [List.singleton_append, List.cons_append]
          refine List.chain'_cons'.2 ⟨?_, List.chain'_cons'.2 ⟨?_, htail⟩⟩
          · intro y hy
            simp at hy
            subst hy
            simp
          · intro y _
            simp
      · rw [if_neg hB]
        by_cases hA : posA = (m.startInAfter : Int)
        · rw [if_pos hA]
          simp only [List.singleton_append, List.cons_append]
          refine List.chain'_cons'.2 ⟨?_, List.chain'_cons'.2 ⟨?_, htail⟩⟩
          · intro y hy
            simp at hy
            subst hy
            simp
          · intro y _
            simp
        · rw [if_neg hA]
          simp only [List.singleton_append, List.cons_append]
          refine List.chain'_cons'.2 ⟨?_, List.chain'_cons'.2 ⟨?_, htail⟩⟩
          · intro y hy
            simp at hy
            subst hy
            simp
          · intro y _
            simp

theorem specDropReplaceRunsGo_id :
    ∀ (ops : List Operation) (lastAction : Option ActionKind),
      NoRR ops →
      (∀ hd, ops.head? = some hd →
        ¬(hd.action = .replace ∧ lastAction = some .replace)) →
      specDropReplaceRunsGo ops lastAction = ops := by
  intro ops
  induction ops with
  | nil =>
    intro l _ _
    rfl
  | cons op rest ih =>
    intro l hchain hhd
    have hcc := List.chain'_cons'.1 hchain
    rw [specDropReplaceRunsGo, if_neg (hhd op rfl)]
    congr 1
    apply ih (some op.action) hcc.2
    intro hd hhd'
    rintro ⟨h1, h2⟩
    have hop : op.action = ActionKind.replace := Option.some.inj h2
    exact hcc.1 hd (by rw [hhd']; rfl) ⟨hop, h1⟩

theorem calculateOperations_eq (bts ats : List Token) :
    calculateOperations bts ats =
      opsFromMatches
        (findMatchingBlocks (createSegment bts ats 0 0) ++
          [makeMatch bts.length ats.length 0 (createSegment bts ats 0 0)]) 0 0 := by
  have hwf : SegWf (createSegment bts ats 0 0) := rfl
  simp only [calculateOperations, postProcess, postProcessGo_eq_spec]
  apply specDropReplaceRunsGo_id
  · apply opsFromMatches_noRR
    intro m hm
    rw [List.dropLast_concat] at hm
    have h1 := (findMatchingBlocks_good _ hwf m hm).1
    omega
  · intro hd _
    rintro ⟨_, h2⟩
    exact Option.noConfusion h2

theorem calcOps_chain (bts ats : List Token) :
    chainFrom 0 (bts.length : Int) (beforeRanges (calculateOperations bts ats)) ∧
    chainFrom 0 (ats.length : Int) (afterRanges (calculateOperations bts ats)) := by
  have hwf : SegWf (createSegment bts ats 0 0) := rfl
  have hins := findMatchingBlocks_inside (createSegment bts ats 0 0) hwf rfl rfl
  have hsb : (makeMatch bts.length ats.length 0 (createSegment bts ats 0 0)).startInBefore
      = bts.length := by simp [makeMatch, createSegment]
  have hsa : (makeMatch bts.length ats.length 0 (createSegment bts ats 0 0)).startInAfter
      = ats.length := by simp [makeMatch, createSegment]
  have heb : (makeMatch bts.length ats.length 0 (createSegment bts ats 0 0)).endInBefore
      = (bts.length : Int) - 1 := by simp [makeMatch, createSegment]
  have hea : (makeMatch bts.length ats.length 0 (createSegment bts ats 0 0)).endInAfter
      = (ats.length : Int) - 1 := by simp [makeMatch, createSegment]
  have hOK : ∀ m ∈ (findMatchingBlocks (createSegment bts ats 0 0) ++
      [makeMatch bts.length ats.length 0 (createSegment bts ats 0 0)]),
      m.endInBefore = (m.startInBefore : Int) + m.length - 1 ∧
      m.endInAfter = (m.startInAfter : Int) + m.length - 1 := by
    intro m hm
    rcases List.mem_append.1 hm with h | h
    · have hg := (hins m h).1
      exact ⟨hg.2.2.2.1, hg.2.2.2.2.1⟩
    · obtain rfl := List.mem_singleton.1 h
      have hlen : (makeMatch bts.length ats.length 0 (createSegment bts ats 0 0)).length
          = 0 := rfl
      rw [heb, hea, hsb, hsa, hlen]
      constructor <;> omega
  have hchain : List.Chain' EntirelyBefore
      (findMatchingBlocks (createSegment bts ats 0 0) ++
        [makeMatch bts.length ats.length 0 (createSegment bts ats 0 0)]) := by
    refine List.chain'_append.2
      ⟨findMatchingBlocks_chain _, List.chain'_singleton _, ?_⟩
    intro x hx y hy
    have hxm := List.mem_of_mem_getLast? hx
    have hy' : makeMatch bts.length ats.length 0 (createSegment bts ats 0 0) = y := by
      simpa using hy
    subst hy'
    obtain ⟨hg, hin⟩ := hins x hxm
    have h1 := hg.1
    have h2 := hg.2.2.2.1
    have h3 := hg.2.2.2.2.1
    have h4 : x.startInBefore + x.length ≤ bts.length := hin.1
    have h5 : x.startInAfter + x.length ≤ ats.length := hin.2
    constructor
    · rw [hsb]
      omega
    · rw [hsa]
      omega
  have hhead : ∀ m0, (findMatchingBlocks (createSegment bts ats 0 0) ++
      [makeMatch bts.length ats.length 0 (createSegment bts ats 0 0)]).head? = some m0 →
      (0 : Int) ≤ (m0.startInBefore : Int) ∧ (0 : Int) ≤ (m0.startInAfter : Int) :=
    fun m0 _ => ⟨Int.natCast_nonneg _, Int.natCast_nonneg _⟩
  have hlast : (findMatchingBlocks (createSegment bts ats 0 0) ++
      [makeMatch bts.length ats.length 0 (createSegment bts ats 0 0)]).getLast? =
      some (makeMatch bts.length ats.length 0 (createSegment bts ats 0 0)) :=
    List.getLast?_concat _
  have hendB : opsEndB 0 (findMatchingBlocks (createSegment bts ats 0 0) ++
      [makeMatch bts.length ats.length 0 (createSegment bts ats 0 0)]) =
      (bts.length : Int) := by
    simp only [opsEndB, hlast]
    rw [heb]
    omega
  have hendA : opsEndA 0 (findMatchingBlocks (createSegment bts ats 0 0) ++
      [makeMatch bts.length ats.length 0 (createSegment bts ats 0 0)]) =
      (ats.length : Int) := by
    simp only [opsEndA, hlast]
    rw [hea]
    omega
  obtain ⟨h1, h2⟩ := opsFromMatches_ranges _ 0 0 hOK hchain hhead
  rw [hendB] at h1
  rw [hendA] at h2
  rw [calculateOperations_eq]
  exact ⟨h1, h2⟩

/-- C2: for every pair of before/after token lists, the
`[startInBefore, endInBefore]` ranges of the operations returned by
`calculateOperations` that have a before side tile the index interval
`[0, beforeTokens.length)` exactly, in order, with no gaps and no overlaps
(`chainFrom 0 len`), and symmetrically the after-side ranges tile
`[0, afterTokens.length)`; an operation has no before-side range exactly when
it is an `insert` and no after-side range exactly when it is a `delete`. -/
theorem c2_operation_coverage (bts ats : List Token) :
    chainFrom 0 (bts.length : Int) (beforeRanges (calculateOperations bts ats)) ∧
    chainFrom 0 (ats.length : Int) (afterRanges (calculateOperations bts ats)) ∧
    ∀ op ∈ calculateOperations bts ats,
      (op.endInBefore = none ↔ op.action = ActionKind.insert) ∧
      (op.endInAfter = none ↔ op.action = ActionKind.delete) := by
  refine ⟨(calcOps_chain bts ats).1, (calcOps_chain bts ats).2, ?_⟩
  intro op hop
  rw [calculateOperations_eq] at hop
  exact opsFromMatches_sides _ 0 0 op hop

/-- C1: for every pair of before/after token lists, concatenating the literal
text of the tokens covered by the before-side ranges of the operations
returned by `calculateOperations` (equal, delete and replace operations, in
order) reconstructs exactly the concatenated text of the before token list,
and the after-side ranges (equal, insert and replace operations) reconstruct
exactly the concatenated text of the after token list. -/
theorem c1_content_conservation (bts ats : List Token) :
    ((beforeRanges (calculateOperations bts ats)).map
        (fun r => tokensText (sliceRange bts r))).flatten = tokensText bts ∧
    ((afterRanges (calculateOperations bts ats)).map
        (fun r => tokensText (sliceRange ats r))).flatten = tokensText ats := by
  obtain ⟨h1, h2⟩ := calcOps_chain bts ats
  constructor
  · have hflat := chainFrom_flatten bts (beforeRanges (calculateOperations bts ats))
      0 (bts.length : Int) h1 le_rfl
    have hmm : (beforeRanges (calculateOperations bts ats)).map
        (fun r => tokensText (sliceRange bts r)) =
        ((beforeRanges (calculateOperations bts ats)).map (sliceRange bts)).map
          tokensText := by
      rw [List.map_map]
      rfl
    rw [hmm, tokensText_flatten, hflat]
    simp
  · have hflat := chainFrom_flatten ats (afterRanges (calculateOperations bts ats))
      0 (ats.length : Int) h2 le_rfl
    have hmm : (afterRanges (calculateOperations bts ats)).map
        (fun r => tokensText (sliceRange ats r)) =
        ((afterRanges (calculateOperations bts ats)).map (sliceRange ats)).map
          tokensText := by
      rw [List.map_map]
      rfl
    rw [hmm, tokensText_flatten, hflat]
    simp

end Htmldiff
